import Mathlib

/-!
# CharmingEPG — verification of the fetch-normalize-merge pipeline

Shallow embedding, in Lean 4, of the pure cores of the CharmingEPG
repository:

* the cross-platform merge engine (`EPGFileManager.aggregate_epg_files`,
  `src/app/file_manager.py`);
* the end-time computations of the RTHK and MyTV-Super adapters
  (`src/app/epg_platform/RTHK.py`, `src/app/epg_platform/MyTvSuper.py`);
* the episode/title normalizer (`has_chinese`, the episode-suffix logic of
  `src/app/epg_platform/Astro.py` / `Starhub.py` / `HOY.py`, and
  `remove_brackets`, `src/app/utils.py`);
* the XMLTV serializer (`generateEpg`, `clean_invalid_xml_chars`,
  `time_stamp_to_timezone_str`, `src/app/epg/EpgGenerator.py`);
* the Astro query-window computation (`AstroPlatform._get_date_params`,
  `src/app/epg_platform/Astro.py`).

Strings are modelled by Lean `String` / `List Char`; machine details that
do not affect the verified properties (HTTP transport, logging, the actual
byte-level XML writer) are modelled at the element-tree level, as explained
in the doc comments of the corresponding definitions.
-/

/-! ## Cross-platform merge engine (`EPGFileManager.aggregate_epg_files`) -/

/-- A `<channel>` element of a per-platform XMLTV document: its `id`
attribute (`None` when the attribute is absent, mirroring
`channel.get("id")`) and an opaque payload standing for the rest of the
element (display name, children). -/
structure XChannel where
  id : Option String
  payload : String
deriving DecidableEq, Repr

/-- A `<programme>` element: its `channel` attribute and an opaque payload
standing for the rest of the element (start/stop/title/desc). -/
structure XProgramme where
  channel : String
  payload : String
deriving DecidableEq, Repr

/-- A parsed per-platform XMLTV document.  `ElementTree.findall("./channel")`
and `findall("./programme[...]")` each traverse the direct children in
document order filtered by tag, so the two tag-filtered child lists, each in
document order, capture everything `aggregate_epg_files` reads. -/
structure XmlDoc where
  channels : List XChannel
  programmes : List XProgramme
deriving DecidableEq, Repr

/-- An element appended to the merged `<tv>` root. -/
inductive MergedElem where
  | chan (c : XChannel)
  | prog (p : XProgramme)
deriving DecidableEq, Repr

/-- Does the string contain a single-quote character (U+0027)?  The merge
interpolates channel ids into an XPath string literal delimited by single
quotes, so such ids break the predicate syntax. -/
def hasQuote (c : String) : Bool :=
  c.data.any (fun ch => ch.toNat = 0x27)

/-- The programmes of `doc` whose `channel` attribute is `c`, in document
order: the successful result of the `findall` below. -/
def progsFor (doc : XmlDoc) (c : String) : List XProgramme :=
  doc.programmes.filter (fun p => p.channel = c)

/-- `platform_root.findall(f"./programme[@channel='{c}']")`: when `c`
contains a single quote the interpolated XPath is malformed and
`ElementTree` raises `SyntaxError('invalid predicate')` — a plain
`SyntaxError`, not an `ET.ParseError`, so the merge's `except` clause does
not catch it and the whole call crashes; otherwise the call returns the
programmes with channel attribute `c` in document order. -/
def findallProgs (doc : XmlDoc) (c : String) : Except Unit (List XProgramme) :=
  if hasQuote c then Except.error () else Except.ok (progsFor doc c)

/-- Is the channel's id attribute free of single quotes (absent ids count
as free)? -/
def idQuoteFree (ch : XChannel) : Bool :=
  match ch.id with
  | none => true
  | some cid => !hasQuote cid

/-- The mutable state of the merge loop in `aggregate_epg_files`:
`channels_seen`, the children appended to `merged_root`, and the two
counters. -/
structure MergeState where
  seen : List String
  out : List MergedElem
  totalChannels : Nat
  totalPrograms : Nat
deriving DecidableEq, Repr

/-- The state before the platform loop starts. -/
def initState : MergeState := ⟨[], [], 0, 0⟩

/-- One iteration of `for channel in platform_root.findall("./channel")`:
if the channel has a truthy (present, non-empty) `id` not yet in
`channels_seen`, append the channel and all of the document's programmes
for that id (via the interpolated `findall`, whose `SyntaxError` for
quote-bearing ids aborts the whole merge — the state mutations made before
the raising `findall` are discarded with the aborted call), and bump the
counters; otherwise do nothing. -/
def processChannel (doc : XmlDoc) (st : MergeState) (ch : XChannel) :
    Except Unit MergeState :=
  match ch.id with
  | none => Except.ok st
  | some c =>
    if c ≠ "" ∧ c ∉ st.seen then
      match findallProgs doc c with
      | Except.error e => Except.error e
      | Except.ok ps =>
        Except.ok
          { seen := st.seen ++ [c]
            out := st.out ++ [MergedElem.chan ch] ++ ps.map MergedElem.prog
            totalChannels := st.totalChannels + 1
            totalPrograms := st.totalPrograms + ps.length }
    else Except.ok st

/-- The channel loop over one parsed document, propagating the uncaught
`SyntaxError`. -/
def foldChansE (doc : XmlDoc) : List XChannel → MergeState → Except Unit MergeState
  | [], st => Except.ok st
  | ch :: rest, st =>
    match processChannel doc st ch with
    | Except.error e => Except.error e
    | Except.ok st' => foldChansE doc rest st'

/-- Process one successfully parsed platform document. -/
def processDoc (st : MergeState) (doc : XmlDoc) : Except Unit MergeState :=
  foldChansE doc doc.channels st

/-- The platform loop of `aggregate_epg_files` over the caller-supplied
ordered platform list: `none` stands for a platform whose file is missing
(`read_epg_file` returned `None`) or whose content failed XML parsing
(`ET.ParseError`); both are skipped with a warning.  A `SyntaxError` from
a kept quote-bearing id propagates. -/
def foldDocsE : List (Option XmlDoc) → MergeState → Except Unit MergeState
  | [], st => Except.ok st
  | none :: rest, st => foldDocsE rest st
  | some d :: rest, st =>
    match processDoc st d with
    | Except.error e => Except.error e
    | Except.ok st' => foldDocsE rest st'

/-- The merge loop from the initial state. -/
def mergeDocs (docs : List (Option XmlDoc)) : Except Unit MergeState :=
  foldDocsE docs initState

/-- The observable outcome of `EPGFileManager.aggregate_epg_files`: an
uncaught exception (the XPath `SyntaxError`), an `HTTPException`, or a
returned document. -/
inductive AggregateResult where
  | crash
  | httpError (code : Nat)
  | ok (out : List MergedElem)
deriving DecidableEq, Repr

/-- Decidable equality for `Except`, so concrete merge outcomes can be
checked by evaluation. -/
instance exceptDecEq {ε α : Type} [DecidableEq ε] [DecidableEq α] :
    DecidableEq (Except ε α) := fun a b =>
  match a, b with
  | Except.error e, Except.error e' =>
    if h : e = e' then isTrue (by rw [h]) else isFalse (fun hx => h (by injection hx))
  | Except.ok x, Except.ok y =>
    if h : x = y then isTrue (by rw [h]) else isFalse (fun hx => h (by injection hx))
  | Except.error _, Except.ok _ => isFalse (fun hx => Except.noConfusion hx)
  | Except.ok _, Except.error _ => isFalse (fun hx => Except.noConfusion hx)

/-- `EPGFileManager.aggregate_epg_files`: run the merge loop; an uncaught
`SyntaxError` propagates to the caller; otherwise, if no channel survived,
raise `HTTPException(status_code=404)`, else return the children of the
merged document. -/
def aggregate_epg_files (docs : List (Option XmlDoc)) : AggregateResult :=
  match mergeDocs docs with
  | Except.error _ => AggregateResult.crash
  | Except.ok st =>
    if st.totalChannels = 0 then AggregateResult.httpError 404
    else AggregateResult.ok st.out

/-- The `<channel>` children of a merged document, in document order. -/
def outChannels (out : List MergedElem) : List XChannel :=
  out.filterMap (fun e => match e with
    | MergedElem.chan c => some c
    | MergedElem.prog _ => none)

/-- The `<programme>` children of a merged document, in document order. -/
def outProgrammes (out : List MergedElem) : List XProgramme :=
  out.filterMap (fun e => match e with
    | MergedElem.chan _ => none
    | MergedElem.prog p => some p)

/-- The localized start instant parsed from the `HH:MM` start string. -/
def rthk_start_minutes (day sh sm : Nat) : Nat :=
  day * 1440 + sh * 60 + sm

/-- The end instant of `_parse_program_block`: when an explicit end string
is present (`some (eh, em)`), the end is placed on the same day, plus one
day when the end clock-time is strictly before the start clock-time
(`end_hour < start_hour or (end_hour == start_hour and end_min <
start_min)`); when no end string is present (or its parse fails), the
fallback is start + 30 minutes. -/
def rthk_end_minutes (day sh sm : Nat) : Option (Nat × Nat) → Nat
  | none => rthk_start_minutes day sh sm + 30
  | some (eh, em) =>
    let e := day * 1440 + eh * 60 + em
    if eh < sh ∨ (eh = sh ∧ em < sm) then e + 1440 else e

/-! ## MyTV Super end-time inference (`MyTvSuperPlatform._fetch_channel_programs`)

The flattened `total_epg` list of one channel is modelled as a list of
optional start times (in minutes); `none` stands for a record whose
`start_datetime` field is absent (such a record produces no program, via
`continue`). -/

/-- The end time the loop computes for a record with start `s`, looking at
the records after it: the immediately following record's start when that
record exists and has one, otherwise `s + 30` minutes (also used for the
last record). -/
def mytvEnd (s : Nat) : List (Option Nat) → Nat
  | [] => s + 30
  | none :: _ => s + 30
  | some n :: _ => n

/-- The `(start, end)` pairs of the programs produced for one channel:
records without a start time are skipped, every other record becomes a
program whose end is `mytvEnd` of the remaining records. -/
def mytv_programs : List (Option Nat) → List (Nat × Nat)
  | [] => []
  | none :: rest => mytv_programs rest
  | some s :: rest => (s, mytvEnd s rest) :: mytv_programs rest

/-- The spec's wording of the inference rule ("end time must be inferred as
the next program's start time within the same channel's ordered list, or
start + 30min as a fallback for the last program of the list"), written for
a list in which every record carries a start time. -/
def mytv_spec_infer : List Nat → List (Nat × Nat)
  | [] => []
  | [s] => [(s, s + 30)]
  | s :: t :: rest => (s, t) :: mytv_spec_infer (t :: rest)

/-! ## Episode/title normalizer (`utils.has_chinese` and the adapters) -/

/-- One character of the `has_chinese` character class: the regex
`[一-鿿㐀-䶿\U00020000-\U0002a6df\U0002a700-\U0002b73f\U0002b740-\U0002b81f\U0002b820-\U0002ceaf]`. -/
def isCjkChar (c : Char) : Bool :=
  (0x4e00 ≤ c.toNat ∧ c.toNat ≤ 0x9fff) ∨
  (0x3400 ≤ c.toNat ∧ c.toNat ≤ 0x4dbf) ∨
  (0x20000 ≤ c.toNat ∧ c.toNat ≤ 0x2a6df) ∨
  (0x2a700 ≤ c.toNat ∧ c.toNat ≤ 0x2b73f) ∨
  (0x2b740 ≤ c.toNat ∧ c.toNat ≤ 0x2b81f) ∨
  (0x2b820 ≤ c.toNat ∧ c.toNat ≤ 0x2ceaf)

/-- `utils.has_chinese`: `re.search` over the class above, i.e. does any
character of the text belong to the class. -/
def has_chinese (text : String) : Bool :=
  text.data.any isCjkChar

/-- The CJK episode suffix `" 第{n}集"`. -/
def episodeSuffixZh (n : Nat) : String :=
  " 第" ++ toString n ++ "集"

/-- The Latin episode suffix `" Ep{n}"`. -/
def episodeSuffixEn (n : Nat) : String :=
  " Ep" ++ toString n

/-- The episode annotation of `AstroPlatform.fetch_programs` and
`StarhubPlatform._fetch_channel_programs`: when `episode_number` is truthy
(present and non-zero), append the CJK suffix when title or description
contains a CJK character, else the Latin suffix. -/
def astro_annotate_title (title description : String) (episodeNumber : Option Nat) : String :=
  match episodeNumber with
  | none => title
  | some n =>
    if n = 0 then title
    else if has_chinese title || has_chinese description then title ++ episodeSuffixZh n
    else title ++ episodeSuffixEn n

/-- The episode annotation of `HOYPlatform._parse_epg_xml`: when
`episode_index` parses to a positive integer, append the CJK suffix
unconditionally (no script detection). -/
def hoy_annotate_title (programName : String) (episodeIndex : Nat) : String :=
  if 0 < episodeIndex then programName ++ episodeSuffixZh episodeIndex else programName

/-! ## `utils.remove_brackets`

The regex `[（(][^（()）]*[）)]` matches an opening bracket (either style),
then a maximal run of non-bracket characters, then a closing bracket.
`re.sub(pattern, '', text)` removes every non-overlapping match in one
left-to-right pass, and the `while re.search` loop repeats passes until no
match remains, then `.strip()` trims whitespace.  Every pass removes at
least two characters of some match, so the loop performs at most `len(text)`
iterations; the fuel arguments below carry that bound and are always
instantiated with the list length (the fuel-exhausted branches are proved
unreachable in the theorems). -/

/-- Opening brackets of the class `[（(]`. -/
def isOpenB (c : Char) : Bool := c = '(' ∨ c = '（'

/-- Closing brackets of the class `[）)]`. -/
def isCloseB (c : Char) : Bool := c = ')' ∨ c = '）'

/-- The four bracket characters excluded by `[^（()）]`. -/
def isBracketB (c : Char) : Bool := isOpenB c || isCloseB c

/-- One `re.sub(pattern, '', text)` pass: scan left to right; at an opening
bracket, the regex engine consumes the following run of non-bracket
characters and requires the next character to be a closing bracket — on
success the whole match is deleted and scanning resumes after it, otherwise
scanning resumes at the next character. -/
def subPassF : Nat → List Char → List Char
  | 0, s => s
  | _ + 1, [] => []
  | f + 1, c :: rest =>
    if isOpenB c then
      match rest.dropWhile (fun x => !isBracketB x) with
      | r :: rest2 =>
        if isCloseB r then subPassF f rest2
        else c :: subPassF f rest
      | [] => c :: subPassF f rest
    else c :: subPassF f rest

/-- One substitution pass over `s` (fuel `s.length` always suffices: the
recursion consumes at least one character of `s` per step). -/
def subPass (s : List Char) : List Char := subPassF s.length s

/-- `re.search(pattern, text)`: does the text contain a match, i.e. an
opening bracket whose first following bracket character is a closing
bracket. -/
def hasMatch : List Char → Bool
  | [] => false
  | c :: rest =>
    if isOpenB c then
      match rest.dropWhile (fun x => !isBracketB x) with
      | r :: _ => if isCloseB r then true else hasMatch rest
      | [] => hasMatch rest
    else hasMatch rest

/-- The `while re.search(pattern, text): text = re.sub(pattern, '', text)`
loop. -/
def removeBracketsLoopF : Nat → List Char → List Char
  | 0, s => s
  | f + 1, s => if hasMatch s then removeBracketsLoopF f (subPass s) else s

/-- A character stripped by Python's `str.strip()`: the characters for
which `str.isspace()` holds. -/
def isPySpace (c : Char) : Bool :=
  (0x9 ≤ c.toNat ∧ c.toNat ≤ 0xD) ∨ (0x1C ≤ c.toNat ∧ c.toNat ≤ 0x1F) ∨
  c.toNat = 0x20 ∨ c.toNat = 0x85 ∨ c.toNat = 0xA0 ∨ c.toNat = 0x1680 ∨
  (0x2000 ≤ c.toNat ∧ c.toNat ≤ 0x200A) ∨ c.toNat = 0x2028 ∨ c.toNat = 0x2029 ∨
  c.toNat = 0x202F ∨ c.toNat = 0x205F ∨ c.toNat = 0x3000

/-- Python `str.strip()`: drop whitespace from both ends. -/
def pyStrip (s : List Char) : List Char :=
  ((s.dropWhile isPySpace).reverse.dropWhile isPySpace).reverse

/-- `utils.remove_brackets`: iterate substitution passes to fixpoint, then
strip whitespace. -/
def remove_brackets (s : List Char) : List Char :=
  pyStrip (removeBracketsLoopF s.length s)

/-! ## XMLTV serializer (`EpgGenerator.generateEpg`)

The serializer is modelled at the element-tree level: `generateEpg` builds
an `ElementTree` whose children we represent as a `TvElem` list.
`ET.tostring` escapes `&`, `<`, `>` in text (and additionally `"`, `\t`,
`\n`, `\r` in attribute values) and `ET.fromstring` undoes those escapes,
but the parser additionally applies XML 1.0 end-of-line normalization to
literal text content: a carriage return written verbatim into a text node
comes back as a linefeed.  So on trees all of whose strings consist of
XML-valid characters, serializing and re-parsing returns the tree with its
text nodes CR-normalized (attribute values survive unchanged thanks to the
writer's `&#13;` escaping); a tree holding an XML-invalid control
character is written verbatim by `ET.tostring` and the resulting bytes are
rejected by `ET.fromstring`.  `reparse` captures exactly this. -/

/-- A character accepted in an XML 1.0 document (what `ET.fromstring`
accepts): tab, LF, CR, and the printable ranges excluding surrogates.
Lean `Char` already excludes surrogates. -/
def xmlValidChar (c : Char) : Bool :=
  c.toNat = 0x9 ∨ c.toNat = 0xA ∨ c.toNat = 0xD ∨
  (0x20 ≤ c.toNat ∧ c.toNat ≤ 0xD7FF) ∨
  (0xE000 ≤ c.toNat ∧ c.toNat ≤ 0xFFFD) ∨
  0x10000 ≤ c.toNat

/-- A character kept by `clean_invalid_xml_chars`: the regex
`[^\x09\x0A\x0D\x20-퟿-�]` deletes everything else (note:
unlike XML itself, this class also deletes all astral-plane characters). -/
def cleanKeepChar (c : Char) : Bool :=
  c.toNat = 0x9 ∨ c.toNat = 0xA ∨ c.toNat = 0xD ∨
  (0x20 ≤ c.toNat ∧ c.toNat ≤ 0xD7FF) ∨
  (0xE000 ≤ c.toNat ∧ c.toNat ≤ 0xFFFD)

/-- `EpgGenerator.clean_invalid_xml_chars`. -/
def clean_invalid_xml_chars (text : String) : String :=
  ⟨text.data.filter cleanKeepChar⟩

/-- The expansion of one character under Python `html.escape` (with the
default `quote=True`): `&`, `<`, `>`, `"` and the apostrophe (U+0027)
become entities, everything else is kept. -/
def htmlEscapeChar (c : Char) : List Char :=
  if c = '&' then "&amp;".data
  else if c = '<' then "&lt;".data
  else if c = '>' then "&gt;".data
  else if c = '"' then "&quot;".data
  else if c.toNat = 0x27 then "&#x27;".data
  else [c]

/-- Python `html.escape` (replacing `&` first makes it equivalent to this
single per-character pass). -/
def html_escape (s : String) : String :=
  ⟨s.data.flatMap htmlEscapeChar⟩

/-- The expansion of one text character under `ET.tostring`'s
`_escape_cdata` (`&`, `<`, `>`). -/
def cdataChar (c : Char) : List Char :=
  if c = '&' then "&amp;".data
  else if c = '<' then "&lt;".data
  else if c = '>' then "&gt;".data
  else [c]

/-- The bytes `ET.tostring` emits for a text node. -/
def cdataRender (s : String) : String :=
  ⟨s.data.flatMap cdataChar⟩

/-- An Asia/Shanghai wall-clock instant.  All `Program` times reach the
serializer as Asia/Shanghai-aware datetimes, so
`astimezone(Asia/Shanghai)` in `time_stamp_to_timezone_str` leaves the
fields unchanged and `%z` renders `+0800`. -/
structure ShTime where
  year : Nat
  month : Nat
  day : Nat
  hour : Nat
  minute : Nat
  second : Nat
deriving DecidableEq, Repr

/-- The decimal digit character for `d % 10`. -/
def digitChar (d : Nat) : Char :=
  if d % 10 = 0 then '0' else if d % 10 = 1 then '1' else if d % 10 = 2 then '2'
  else if d % 10 = 3 then '3' else if d % 10 = 4 then '4' else if d % 10 = 5 then '5'
  else if d % 10 = 6 then '6' else if d % 10 = 7 then '7' else if d % 10 = 8 then '8'
  else '9'

/-- Decimal digits of `n` (most significant first); fuel is structural and
`n + 1` always suffices. -/
def natDigitsF : Nat → Nat → List Char
  | 0, _ => []
  | f + 1, n => if n < 10 then [digitChar n] else natDigitsF f (n / 10) ++ [digitChar n]

/-- `n` in decimal, zero-padded on the left to width `w` (the behavior of
`strftime`'s `%Y`/`%m`/.../`%S` fields). -/
def padNum (w n : Nat) : List Char :=
  let ds := natDigitsF (n + 1) n
  List.replicate (w - ds.length) '0' ++ ds

/-- `EpgGenerator.time_stamp_to_timezone_str`: `strftime('%Y%m%d%H%M%S %z')`
of the instant in Asia/Shanghai. -/
def time_stamp_to_timezone_str (t : ShTime) : String :=
  ⟨padNum 4 t.year ++ padNum 2 t.month ++ padNum 2 t.day ++ padNum 2 t.hour ++
    padNum 2 t.minute ++ padNum 2 t.second ++ (" +0800").data⟩

/-- One entry of the `channels` argument of `generateEpg`. -/
structure RawChannel where
  channelName : String
deriving DecidableEq, Repr

/-- One entry of the `programs` argument of `generateEpg`. -/
structure RawProgram where
  channelName : String
  programName : String
  description : String
  start : ShTime
  stop : ShTime
deriving DecidableEq, Repr

/-- A child of the generated `<tv>` element. -/
inductive TvElem where
  | channel (id : String) (displayName : String)
  | programme (channel : String) (start : String) (stop : String) (title : String)
      (desc : Option String)
deriving DecidableEq, Repr

/-- `EpgGenerator.generateEpg`: one `<channel id="{name}">` with a
`<display-name>` per channel, then one `<programme>` per program with the
formatted start/stop, the title stored verbatim, and — only when the
description is truthy (non-empty) — a `<desc>` holding
`html.escape(clean_invalid_xml_chars(description))`. -/
def generateEpg (channels : List RawChannel) (programs : List RawProgram) : List TvElem :=
  channels.map (fun c => TvElem.channel c.channelName c.channelName) ++
  programs.map (fun p =>
    TvElem.programme p.channelName
      (time_stamp_to_timezone_str p.start) (time_stamp_to_timezone_str p.stop)
      p.programName
      (if p.description = "" then none
       else some (html_escape (clean_invalid_xml_chars p.description))))

/-- Is every character of the string XML-valid? -/
def strValid (s : String) : Bool :=
  s.data.all xmlValidChar

/-- Is every string stored in the element XML-valid? -/
def elemValid : TvElem → Bool
  | TvElem.channel i d => strValid i && strValid d
  | TvElem.programme c s t ti de =>
    strValid c && strValid s && strValid t && strValid ti &&
    (match de with
     | none => true
     | some d => strValid d)

/-- The linefeed character, the result of XML end-of-line normalization. -/
def charLF : Char := Char.ofNat 10

/-- XML 1.0 end-of-line normalization (§2.11), applied by the parser to
literal text content: each CRLF pair and each remaining lone CR becomes a
single LF.  `ET.tostring` writes CR in *text* nodes verbatim, so the
re-parsed text differs from the stored text whenever it held a CR;
*attribute* values are not affected because the writer escapes CR there as
`&#13;`. -/
def crNormL : List Char → List Char
  | [] => []
  | [c] => if c.toNat = 13 then [charLF] else [c]
  | c :: c2 :: rest =>
    if c.toNat = 13 then
      if c2.toNat = 10 then charLF :: crNormL rest
      else charLF :: crNormL (c2 :: rest)
    else c :: crNormL (c2 :: rest)

/-- End-of-line normalization on a string. -/
def crNorm (s : String) : String :=
  ⟨crNormL s.data⟩

/-- Is the string free of carriage returns (U+000D)? -/
def noCR (s : String) : Bool :=
  s.data.all (fun c => c.toNat ≠ 13)

/-- What re-parsing does to one element of a valid tree: attribute values
(`id`, `channel`, `start`, `stop`) come back unchanged (the writer escapes
CR/LF/TAB in attributes), while text nodes (`display-name`, `title`,
`desc`) undergo end-of-line normalization. -/
def normElem : TvElem → TvElem
  | TvElem.channel i d => TvElem.channel i (crNorm d)
  | TvElem.programme c s t ti de => TvElem.programme c s t (crNorm ti) (de.map crNorm)

/-- `ET.fromstring (ET.tostring tree)`: on trees whose strings are
XML-valid, the parse succeeds and returns the tree with its text nodes
end-of-line-normalized; a tree holding an XML-invalid character yields
unparsable bytes (see the section comment). -/
def reparse (doc : List TvElem) : Option (List TvElem) :=
  if doc.all elemValid then some (doc.map normElem) else none

/-- The `id` attributes of the `<channel>` children, in document order. -/
def parsedChannelIds (doc : List TvElem) : List String :=
  doc.filterMap (fun e => match e with
    | TvElem.channel i _ => some i
    | TvElem.programme _ _ _ _ _ => none)

/-- The `(channel, title, start, stop)` tuples of the `<programme>`
children, in document order. -/
def parsedProgTuples (doc : List TvElem) : List (String × String × String × String) :=
  doc.filterMap (fun e => match e with
    | TvElem.channel _ _ => none
    | TvElem.programme c s t ti _ => some (c, ti, s, t))

/-- The `<desc>` texts of the `<programme>` children (`none` when the
element is absent), in document order. -/
def parsedDescs (doc : List TvElem) : List (Option String) :=
  doc.filterMap (fun e => match e with
    | TvElem.channel _ _ => none
    | TvElem.programme _ _ _ _ de => some de)

/-! ## Astro query window (`AstroPlatform._get_date_params`)

An Asia/Shanghai instant is modelled as a calendar-day index and a
second-of-day; `timedelta(days=k)` adds to the day index (Asia/Shanghai has
no DST), `.replace(...)`/`datetime.combine(..., time(0, 0))` set the
second-of-day, and `datetime` subtraction is exact in seconds. -/

/-- A Shanghai-local instant: day index (from an arbitrary origin) and
second of day. -/
structure SInstant where
  day : Int
  sod : Nat
deriving DecidableEq, Repr

/-- `(a - b).total_seconds()` for two instants. -/
def diffSeconds (a b : SInstant) : Int :=
  (a.day - b.day) * 86400 + ((a.sod : Int) - (b.sod : Int))

/-- `math.ceil(n / m)` for a non-negative integral numerator. -/
def ceilDivNat (n m : Nat) : Nat :=
  (n + m - 1) / m

/-- `AstroPlatform._get_date_params` up to the final UTC/ISO rendering of
the start instant (the last two lines of the source only re-render
`target_time`): for `date_delta = 0`, round the current minute down to the
nearest half hour, zero the seconds, and take `math.ceil` of the seconds
until the next local midnight divided by 3600; for other deltas, local
midnight of the shifted day and 24 hours. -/
def astro_get_date_params (now : SInstant) (dateDelta : Nat) : SInstant × Nat :=
  let shifted : SInstant := ⟨now.day + dateDelta, now.sod⟩
  if dateDelta = 0 then
    let hour := shifted.sod / 3600
    let minute := shifted.sod / 60 % 60
    let rounded := if minute < 30 then 0 else 30
    let target : SInstant := ⟨shifted.day, hour * 3600 + rounded * 60⟩
    let nextDay : SInstant := ⟨target.day + 1, 0⟩
    let durSeconds := diffSeconds nextDay target
    (target, ceilDivNat durSeconds.toNat 3600)
  else
    (⟨shifted.day, 0⟩, 24)

/-! ## Theorems -/

theorem outProgrammes_append (o₁ o₂ : List MergedElem) :
    outProgrammes (o₁ ++ o₂) = outProgrammes o₁ ++ outProgrammes o₂ := by
  simp [outProgrammes, List.filterMap_append]

theorem outChannels_append (o₁ o₂ : List MergedElem) :
    outChannels (o₁ ++ o₂) = outChannels o₁ ++ outChannels o₂ := by
  simp [outChannels, List.filterMap_append]

theorem findallProgs_quote_true (doc : XmlDoc) (c : String) (hq : hasQuote c = true) :
    findallProgs doc c = Except.error () := by
  unfold findallProgs
  rw [if_pos hq]

theorem findallProgs_quote_false (doc : XmlDoc) (c : String) (hq : hasQuote c = false) :
    findallProgs doc c = Except.ok (progsFor doc c) := by
  unfold findallProgs
  rw [if_neg (by simp [hq])]

theorem foldChansE_cons (d : XmlDoc) (ch : XChannel) (rest : List XChannel) (st : MergeState) :
    foldChansE d (ch :: rest) st =
      match processChannel d st ch with
      | Except.error e => Except.error e
      | Except.ok st' => foldChansE d rest st' := rfl

theorem foldDocsE_cons_none (rest : List (Option XmlDoc)) (st : MergeState) :
    foldDocsE (none :: rest) st = foldDocsE rest st := rfl

theorem foldDocsE_cons_some (d : XmlDoc) (rest : List (Option XmlDoc)) (st : MergeState) :
    foldDocsE (some d :: rest) st =
      match processDoc st d with
      | Except.error e => Except.error e
      | Except.ok st' => foldDocsE rest st' := rfl

theorem processChannel_id_none (doc : XmlDoc) (st : MergeState) (ch : XChannel)
    (h : ch.id = none) : processChannel doc st ch = Except.ok st := by
  unfold processChannel
  rw [h]

theorem processChannel_some_id (doc : XmlDoc) (st : MergeState) (ch : XChannel) (c : String)
    (h : ch.id = some c) :
    processChannel doc st ch =
      if c ≠ "" ∧ c ∉ st.seen then
        match findallProgs doc c with
        | Except.error e => Except.error e
        | Except.ok ps =>
          Except.ok
            { seen := st.seen ++ [c]
              out := st.out ++ [MergedElem.chan ch] ++ ps.map MergedElem.prog
              totalChannels := st.totalChannels + 1
              totalPrograms := st.totalPrograms + ps.length }
      else Except.ok st := by
  unfold processChannel
  rw [h]

theorem processChannel_skip (doc : XmlDoc) (st : MergeState) (ch : XChannel) (c : String)
    (h : ch.id = some c) (hk : ¬(c ≠ "" ∧ c ∉ st.seen)) :
    processChannel doc st ch = Except.ok st := by
  rw [processChannel_some_id doc st ch c h, if_neg hk]

theorem processChannel_quote (doc : XmlDoc) (st : MergeState) (ch : XChannel) (c : String)
    (h : ch.id = some c) (hc : c ≠ "") (hs : c ∉ st.seen) (hq : hasQuote c = true) :
    processChannel doc st ch = Except.error () := by
  rw [processChannel_some_id doc st ch c h, if_pos ⟨hc, hs⟩, findallProgs_quote_true doc c hq]

theorem processChannel_keep (doc : XmlDoc) (st : MergeState) (ch : XChannel) (c : String)
    (h : ch.id = some c) (hc : c ≠ "") (hs : c ∉ st.seen) (hq : hasQuote c = false) :
    processChannel doc st ch = Except.ok
      ⟨st.seen ++ [c], st.out ++ [MergedElem.chan ch] ++ (progsFor doc c).map MergedElem.prog,
        st.totalChannels + 1, st.totalPrograms + (progsFor doc c).length⟩ := by
  rw [processChannel_some_id doc st ch c h, if_pos ⟨hc, hs⟩, findallProgs_quote_false doc c hq]

theorem outProgrammes_progElems (ps : List XProgramme) :
    outProgrammes (ps.map MergedElem.prog) = ps := by
  induction ps with
  | nil => rfl
  | cons p rest ih =>
    simp only [outProgrammes, List.map_cons, List.filterMap_cons] at ih ⊢
    rw [ih]

theorem outChannels_progElems (ps : List XProgramme) :
    outChannels (ps.map MergedElem.prog) = [] := by
  induction ps with
  | nil => rfl
  | cons p rest ih =>
    simp only [outChannels, List.map_cons, List.filterMap_cons] at ih ⊢
    exact ih

theorem flatMap_congr_mem {α β : Type} {l : List α} {f g : α → List β}
    (h : ∀ a ∈ l, f a = g a) : l.flatMap f = l.flatMap g := by
  induction l with
  | nil => rfl
  | cons a rest ih =>
    rw [List.flatMap_cons, List.flatMap_cons, h a (List.mem_cons_self a rest),
      ih (fun a' hm => h a' (List.mem_cons_of_mem a hm))]

theorem foldChansE_fresh (d : XmlDoc) (chans : List XChannel) :
    ∀ st : MergeState,
    (∀ ch ∈ chans, ∃ cid, ch.id = some cid ∧ cid ≠ "" ∧ hasQuote cid = false ∧
      cid ∉ st.seen) →
    (chans.map (fun ch => ch.id)).Nodup →
    ∃ st' : MergeState, foldChansE d chans st = Except.ok st' ∧
      st'.out = st.out ++ chans.flatMap (fun ch =>
        match ch.id with
        | none => []
        | some cid => MergedElem.chan ch :: (progsFor d cid).map MergedElem.prog) := by
  induction chans with
  | nil =>
    intro st _ _
    exact ⟨st, rfl, by simp⟩
  | cons ch rest ih =>
    intro st hfresh hnd
    obtain ⟨c, hid, hc, hq, hs⟩ := hfresh ch (List.mem_cons_self ch rest)
    rw [List.map_cons, List.nodup_cons] at hnd
    have hfresh' : ∀ ch' ∈ rest, ∃ cid, ch'.id = some cid ∧ cid ≠ "" ∧
        hasQuote cid = false ∧ cid ∉ (st.seen ++ [c]) := by
      intro ch' hm
      obtain ⟨cid, hid', hc', hq', hs'⟩ := hfresh ch' (List.mem_cons_of_mem ch hm)
      refine ⟨cid, hid', hc', hq', ?_⟩
      intro hmem
      rcases List.mem_append.mp hmem with h' | h'
      · exact hs' h'
      · rw [List.mem_singleton] at h'
        apply hnd.1
        rw [hid, ← h', ← hid']
        exact List.mem_map_of_mem (fun x => x.id) hm
    obtain ⟨st', hok, hout⟩ := ih ⟨st.seen ++ [c],
      st.out ++ [MergedElem.chan ch] ++ (progsFor d c).map MergedElem.prog,
      st.totalChannels + 1, st.totalPrograms + (progsFor d c).length⟩ hfresh' hnd.2
    refine ⟨st', ?_, ?_⟩
    · rw [foldChansE_cons, processChannel_keep d st ch c hid hc hs hq]
      exact hok
    · rw [hout, List.flatMap_cons, hid]
      simp [List.append_assoc]

theorem map_id_eq_map_some (chans : List XChannel)
    (h : ∀ ch ∈ chans, ∃ cid, ch.id = some cid) :
    chans.map (fun ch => ch.id) = (chans.filterMap (fun ch => ch.id)).map some := by
  induction chans with
  | nil => rfl
  | cons ch rest ih =>
    obtain ⟨cid, hid⟩ := h ch (List.mem_cons_self ch rest)
    rw [List.map_cons, List.filterMap_cons, hid, List.map_cons,
      ih (fun ch' hm => h ch' (List.mem_cons_of_mem ch hm))]

theorem outChannels_blocks (d : XmlDoc) (chans : List XChannel)
    (h : ∀ ch ∈ chans, ∃ cid, ch.id = some cid) :
    outChannels (chans.flatMap (fun ch =>
      match ch.id with
      | none => []
      | some cid => MergedElem.chan ch :: (progsFor d cid).map MergedElem.prog)) = chans := by
  induction chans with
  | nil => rfl
  | cons ch rest ih =>
    obtain ⟨cid, hid⟩ := h ch (List.mem_cons_self ch rest)
    rw [List.flatMap_cons, hid, outChannels_append]
    have e1 : outChannels (MergedElem.chan ch :: (progsFor d cid).map MergedElem.prog) =
        ch :: outChannels ((progsFor d cid).map MergedElem.prog) := rfl
    rw [e1, outChannels_progElems, ih (fun ch' hm => h ch' (List.mem_cons_of_mem ch hm))]
    rfl

theorem outProgrammes_blocks (d : XmlDoc) (chans : List XChannel)
    (h : ∀ ch ∈ chans, ∃ cid, ch.id = some cid) :
    outProgrammes (chans.flatMap (fun ch =>
      match ch.id with
      | none => []
      | some cid => MergedElem.chan ch :: (progsFor d cid).map MergedElem.prog)) =
    (chans.filterMap (fun ch => ch.id)).flatMap
      (fun c => d.programmes.filter (fun p => p.channel = c)) := by
  induction chans with
  | nil => rfl
  | cons ch rest ih =>
    obtain ⟨cid, hid⟩ := h ch (List.mem_cons_self ch rest)
    rw [List.flatMap_cons, hid, outProgrammes_append, List.filterMap_cons, hid,
      List.flatMap_cons]
    have e1 : outProgrammes (MergedElem.chan ch :: (progsFor d cid).map MergedElem.prog) =
        outProgrammes ((progsFor d cid).map MergedElem.prog) := rfl
    rw [e1, outProgrammes_progElems,
      ih (fun ch' hm => h ch' (List.mem_cons_of_mem ch hm))]
    rfl

theorem filter_partition_perm (ids : List String) (progs : List XProgramme)
    (hnd : ids.Nodup) (hall : ∀ p ∈ progs, p.channel ∈ ids) :
    List.Perm (ids.flatMap (fun c => progs.filter (fun p => p.channel = c))) progs := by
  induction ids generalizing progs with
  | nil =>
    cases progs with
    | nil => simp
    | cons p rest => exact absurd (hall p (List.mem_cons_self p rest)) (List.not_mem_nil _)
  | cons c rest ih =>
    rw [List.nodup_cons] at hnd
    rw [List.flatMap_cons]
    have key : rest.flatMap (fun c' => progs.filter (fun p => p.channel = c')) =
        rest.flatMap (fun c' =>
          (progs.filter (fun p => !decide (p.channel = c))).filter
            (fun p => p.channel = c')) := by
      apply flatMap_congr_mem
      intro c' hm
      rw [List.filter_filter]
      apply List.filter_congr
      intro p _
      by_cases hp : p.channel = c'
      · have hcc : ¬ c' = c := fun he => hnd.1 (he ▸ hm)
        simp [hp, hcc]
      · simp [hp]
    rw [key]
    have hall' : ∀ p ∈ progs.filter (fun p => !decide (p.channel = c)), p.channel ∈ rest := by
      intro p hp
      obtain ⟨hm, hf⟩ := List.mem_filter.mp hp
      have := hall p hm
      rcases List.mem_cons.mp this with h' | h'
      · simp [h'] at hf
      · exact h'
    have hperm := ih (progs.filter (fun p => !decide (p.channel = c))) hnd.2 hall'
    exact (List.Perm.append_left _ hperm).trans (List.filter_append_perm _ progs)

/-- **C3 (amended).** Merge idempotence: when a single document is the only
merge input and (i) every channel has a truthy (present, non-empty) id,
(ii) no channel id contains a single quote (so the interpolated XPath
cannot raise), (iii) no two channels share an id attribute, and (iv) every
programme's channel attribute matches some channel's id, the merge
completes and its output carries exactly the input's channel elements, in
order, and a permutation of the input's programme multiset (programmes are
regrouped behind their channels).  The claim as frozen — for *every*
single document — fails: duplicate ids are dedupped (see the
counterexample), and a quote-bearing kept id crashes the merge. -/
theorem C3_merge_idempotent (d : XmlDoc)
    (h1 : ∀ ch ∈ d.channels, ch.id ≠ none ∧ ch.id ≠ some "")
    (hqf : ∀ ch ∈ d.channels, idQuoteFree ch = true)
    (h2 : (d.channels.map (fun ch => ch.id)).Nodup)
    (h3 : ∀ p ∈ d.programmes, ∃ ch ∈ d.channels, ch.id = some p.channel) :
    ∃ st : MergeState, mergeDocs [some d] = Except.ok st ∧
      outChannels st.out = d.channels ∧
      List.Perm (outProgrammes st.out) d.programmes := by
  have h1' : ∀ ch ∈ d.channels, ∃ cid, ch.id = some cid ∧ cid ≠ "" ∧
      hasQuote cid = false ∧ cid ∉ initState.seen := by
    intro ch hm
    obtain ⟨ha, hb⟩ := h1 ch hm
    have hqf' := hqf ch hm
    cases hid : ch.id with
    | none => exact absurd hid ha
    | some cid =>
      unfold idQuoteFree at hqf'
      rw [hid] at hqf'
      refine ⟨cid, rfl, fun he => hb (by rw [hid, he]), ?_, List.not_mem_nil cid⟩
      simpa using hqf'
  have hsome : ∀ ch ∈ d.channels, ∃ cid, ch.id = some cid := by
    intro ch hm
    obtain ⟨cid, hid, _⟩ := h1' ch hm
    exact ⟨cid, hid⟩
  obtain ⟨st, hok, hout⟩ := foldChansE_fresh d d.channels initState h1' h2
  refine ⟨st, ?_, ?_, ?_⟩
  · show foldDocsE [some d] initState = Except.ok st
    rw [foldDocsE_cons_some]
    have hok' : processDoc initState d = Except.ok st := hok
    rw [hok']
    rfl
  · rw [hout]
    have e2 : initState.out = [] := rfl
    rw [e2, List.nil_append]
    exact outChannels_blocks d d.channels hsome
  · rw [hout]
    have e2 : initState.out = [] := rfl
    rw [e2, List.nil_append, outProgrammes_blocks d d.channels hsome]
    apply filter_partition_perm
    · have em := map_id_eq_map_some d.channels hsome
      rw [em] at h2
      exact h2.of_map some
    · intro p hp
      obtain ⟨ch, hm, hid⟩ := h3 p hp
      exact List.mem_filterMap.mpr ⟨ch, hm, hid⟩

/-- Witness for `C3_merge_idempotent`: a two-channel document with
distinct, quote-free ids and routed programmes round-trips through the
merge. -/
theorem C3_merge_idempotent_witness :
    ∃ st : MergeState,
      mergeDocs [some ⟨[⟨some "a", "A"⟩, ⟨some "b", "B"⟩],
                       [⟨"b", "p1"⟩, ⟨"a", "p2"⟩]⟩] = Except.ok st ∧
      outChannels st.out = [⟨some "a", "A"⟩, ⟨some "b", "B"⟩] ∧
      List.Perm (outProgrammes st.out) [⟨"b", "p1"⟩, ⟨"a", "p2"⟩] :=
  C3_merge_idempotent ⟨[⟨some "a", "A"⟩, ⟨some "b", "B"⟩], [⟨"b", "p1"⟩, ⟨"a", "p2"⟩]⟩
    (by decide) (by decide) (by decide) (by decide)

/-- **C3 counterexample.** A document containing two channel elements with
the same id attribute but different contents: the input retains both, the
merge keeps only the first, so the merged channel-element set is not the
input's. -/
theorem C3_counterexample :
    ((⟨some "a", "Y"⟩ : XChannel) ∈
      (⟨[⟨some "a", "X"⟩, ⟨some "a", "Y"⟩], [⟨"a", "p"⟩]⟩ : XmlDoc).channels) ∧
    mergeDocs [some ⟨[⟨some "a", "X"⟩, ⟨some "a", "Y"⟩], [⟨"a", "p"⟩]⟩] =
      Except.ok ⟨["a"], [MergedElem.chan ⟨some "a", "X"⟩, MergedElem.prog ⟨"a", "p"⟩], 1, 1⟩ ∧
    (⟨some "a", "Y"⟩ : XChannel) ∉
      outChannels [MergedElem.chan ⟨some "a", "X"⟩, MergedElem.prog ⟨"a", "p"⟩] := by
  decide

theorem processChannel_untruthy (doc : XmlDoc) (st : MergeState) (ch : XChannel)
    (h : ∀ cn, ch.id = some cn → cn = "") : processChannel doc st ch = Except.ok st := by
  cases hid : ch.id with
  | none => exact processChannel_id_none doc st ch hid
  | some cn => exact processChannel_skip doc st ch cn hid (fun hk => hk.1 (h cn hid))

theorem foldChansE_untruthy (d : XmlDoc) (chans : List XChannel)
    (h : ∀ ch ∈ chans, ∀ cn, ch.id = some cn → cn = "") :
    ∀ st : MergeState, foldChansE d chans st = Except.ok st := by
  induction chans with
  | nil => exact fun _ => rfl
  | cons ch rest ih =>
    intro st
    rw [foldChansE_cons,
      processChannel_untruthy d st ch (h ch (List.mem_cons_self ch rest))]
    exact ih (fun ch' hm => h ch' (List.mem_cons_of_mem ch hm)) st

theorem foldDocsE_untruthy (docs : List (Option XmlDoc))
    (h : ∀ d : XmlDoc, some d ∈ docs → ∀ ch ∈ d.channels, ∀ cn, ch.id = some cn → cn = "") :
    ∀ st : MergeState, foldDocsE docs st = Except.ok st := by
  induction docs with
  | nil => exact fun _ => rfl
  | cons od rest ih =>
    intro st
    have ih' := ih (fun d hm => h d (List.mem_cons_of_mem od hm))
    cases od with
    | none =>
      rw [foldDocsE_cons_none]
      exact ih' st
    | some d =>
      rw [foldDocsE_cons_some]
      have e : processDoc st d = Except.ok st :=
        foldChansE_untruthy d d.channels (h d (List.mem_cons_self (some d) rest)) st
      rw [e]
      exact ih' st

theorem processChannel_seen_ne (doc : XmlDoc) (st st₁ : MergeState) (ch : XChannel)
    (hok : processChannel doc st ch = Except.ok st₁) (h : st.seen ≠ []) :
    st₁.seen ≠ [] := by
  cases hid : ch.id with
  | none =>
    rw [processChannel_id_none doc st ch hid] at hok
    injection hok with hok
    rw [← hok]
    exact h
  | some cn =>
    by_cases hk : cn ≠ "" ∧ cn ∉ st.seen
    · cases hq : hasQuote cn with
      | true =>
        rw [processChannel_quote doc st ch cn hid hk.1 hk.2 hq] at hok
        exact Except.noConfusion hok
      | false =>
        rw [processChannel_keep doc st ch cn hid hk.1 hk.2 hq] at hok
        injection hok with hok
        rw [← hok]
        simp
    · rw [processChannel_skip doc st ch cn hid hk] at hok
      injection hok with hok
      rw [← hok]
      exact h

theorem foldChansE_seen_ne (d : XmlDoc) (chans : List XChannel) :
    ∀ st st' : MergeState, foldChansE d chans st = Except.ok st' → st.seen ≠ [] →
    st'.seen ≠ [] := by
  induction chans with
  | nil =>
    intro st st' hok h
    injection hok with hok
    rw [← hok]
    exact h
  | cons ch rest ih =>
    intro st st' hok h
    rw [foldChansE_cons] at hok
    cases hpc : processChannel d st ch with
    | error e =>
      rw [hpc] at hok
      exact Except.noConfusion hok
    | ok st₁ =>
      rw [hpc] at hok
      exact ih st₁ st' hok (processChannel_seen_ne d st st₁ ch hpc h)

theorem foldDocsE_seen_ne (docs : List (Option XmlDoc)) :
    ∀ st st' : MergeState, foldDocsE docs st = Except.ok st' → st.seen ≠ [] →
    st'.seen ≠ [] := by
  induction docs with
  | nil =>
    intro st st' hok h
    injection hok with hok
    rw [← hok]
    exact h
  | cons od rest ih =>
    intro st st' hok h
    cases od with
    | none =>
      rw [foldDocsE_cons_none] at hok
      exact ih st st' hok h
    | some d =>
      rw [foldDocsE_cons_some] at hok
      cases hpd : processDoc st d with
      | error e =>
        rw [hpd] at hok
        exact Except.noConfusion hok
      | ok st₁ =>
        rw [hpd] at hok
        exact ih st₁ st' hok (foldChansE_seen_ne d d.channels st st₁ hpd h)

theorem foldChansE_establish (d : XmlDoc) (chans : List XChannel)
    (hex : ∃ ch ∈ chans, ∃ cn, ch.id = some cn ∧ cn ≠ "") :
    ∀ st st' : MergeState, foldChansE d chans st = Except.ok st' → st'.seen ≠ [] := by
  induction chans with
  | nil =>
    rcases hex with ⟨ch, hm, _⟩
    exact absurd hm (List.not_mem_nil ch)
  | cons ch rest ih =>
    intro st st' hok
    rw [foldChansE_cons] at hok
    rcases hex with ⟨ch', hm, cn, hid, hcn⟩
    rcases List.mem_cons.mp hm with rfl | hm'
    · by_cases hk : cn ≠ "" ∧ cn ∉ st.seen
      · cases hq : hasQuote cn with
        | true =>
          rw [processChannel_quote d st ch' cn hid hk.1 hk.2 hq] at hok
          exact Except.noConfusion hok
        | false =>
          rw [processChannel_keep d st ch' cn hid hk.1 hk.2 hq] at hok
          exact foldChansE_seen_ne d rest _ st' hok (by simp)
      · rw [processChannel_skip d st ch' cn hid hk] at hok
        have hmem : cn ∈ st.seen := by
          by_contra hx
          exact hk ⟨hcn, hx⟩
        exact foldChansE_seen_ne d rest st st' hok (List.ne_nil_of_mem hmem)
    · cases hpc : processChannel d st ch with
      | error e =>
        rw [hpc] at hok
        exact Except.noConfusion hok
      | ok st₁ =>
        rw [hpc] at hok
        exact ih ⟨ch', hm', cn, hid, hcn⟩ st₁ st' hok

theorem processChannel_count_inv (doc : XmlDoc) (st st₁ : MergeState) (ch : XChannel)
    (hok : processChannel doc st ch = Except.ok st₁)
    (h : st.seen ≠ [] → 0 < st.totalChannels) :
    st₁.seen ≠ [] → 0 < st₁.totalChannels := by
  cases hid : ch.id with
  | none =>
    rw [processChannel_id_none doc st ch hid] at hok
    injection hok with hok
    rw [← hok]
    exact h
  | some cn =>
    by_cases hk : cn ≠ "" ∧ cn ∉ st.seen
    · cases hq : hasQuote cn with
      | true =>
        rw [processChannel_quote doc st ch cn hid hk.1 hk.2 hq] at hok
        exact Except.noConfusion hok
      | false =>
        rw [processChannel_keep doc st ch cn hid hk.1 hk.2 hq] at hok
        injection hok with hok
        rw [← hok]
        exact fun _ => Nat.succ_pos _
    · rw [processChannel_skip doc st ch cn hid hk] at hok
      injection hok with hok
      rw [← hok]
      exact h

theorem foldChansE_count_inv (d : XmlDoc) (chans : List XChannel) :
    ∀ st st' : MergeState, foldChansE d chans st = Except.ok st' →
    (st.seen ≠ [] → 0 < st.totalChannels) →
    (st'.seen ≠ [] → 0 < st'.totalChannels) := by
  induction chans with
  | nil =>
    intro st st' hok h
    injection hok with hok
    rw [← hok]
    exact h
  | cons ch rest ih =>
    intro st st' hok h
    rw [foldChansE_cons] at hok
    cases hpc : processChannel d st ch with
    | error e =>
      rw [hpc] at hok
      exact Except.noConfusion hok
    | ok st₁ =>
      rw [hpc] at hok
      exact ih st₁ st' hok (processChannel_count_inv d st st₁ ch hpc h)

theorem foldDocsE_count_inv (docs : List (Option XmlDoc)) :
    ∀ st st' : MergeState, foldDocsE docs st = Except.ok st' →
    (st.seen ≠ [] → 0 < st.totalChannels) →
    (st'.seen ≠ [] → 0 < st'.totalChannels) := by
  induction docs with
  | nil =>
    intro st st' hok h
    injection hok with hok
    rw [← hok]
    exact h
  | cons od rest ih =>
    intro st st' hok h
    cases od with
    | none =>
      rw [foldDocsE_cons_none] at hok
      exact ih st st' hok h
    | some d =>
      rw [foldDocsE_cons_some] at hok
      cases hpd : processDoc st d with
      | error e =>
        rw [hpd] at hok
        exact Except.noConfusion hok
      | ok st₁ =>
        rw [hpd] at hok
        exact ih st₁ st' hok (foldChansE_count_inv d d.channels st st₁ hpd h)

theorem foldDocsE_append (l₁ l₂ : List (Option XmlDoc)) :
    ∀ st : MergeState, foldDocsE (l₁ ++ l₂) st =
      match foldDocsE l₁ st with
      | Except.error e => Except.error e
      | Except.ok st' => foldDocsE l₂ st' := by
  induction l₁ with
  | nil => exact fun _ => rfl
  | cons od rest ih =>
    intro st
    cases od with
    | none =>
      rw [List.cons_append, foldDocsE_cons_none, foldDocsE_cons_none]
      exact ih st
    | some d =>
      rw [List.cons_append, foldDocsE_cons_some, foldDocsE_cons_some]
      cases processDoc st d with
      | error e => rfl
      | ok st₁ => exact ih st₁

/-- **C8.** Merge error handling: a platform whose document is missing or
unparsable (modelled as `none`) is skipped — deleting it from the platform
list leaves the result unchanged, whatever that result is, so those
platforms never make the merge fail — and the merge raises 404 exactly
when zero channels survive, i.e. when no surviving document contains a
channel with a truthy (present, non-empty) id attribute.  (The only other
failure, `AggregateResult.crash`, is the uncaught XPath `SyntaxError` for
a kept quote-bearing id, and it requires a kept — hence truthy — channel,
so it never competes with the 404 case.) -/
theorem C8_skip_and_404 :
    (∀ l₁ l₂ : List (Option XmlDoc),
      aggregate_epg_files (l₁ ++ none :: l₂) = aggregate_epg_files (l₁ ++ l₂)) ∧
    (∀ docs : List (Option XmlDoc),
      aggregate_epg_files docs = AggregateResult.httpError 404 ↔
        ∀ d : XmlDoc, some d ∈ docs → ∀ ch ∈ d.channels, ∀ cn, ch.id = some cn → cn = "") := by
  constructor
  · intro l₁ l₂
    have e : mergeDocs (l₁ ++ none :: l₂) = mergeDocs (l₁ ++ l₂) := by
      unfold mergeDocs
      rw [foldDocsE_append, foldDocsE_append]
      cases foldDocsE l₁ initState with
      | error e => rfl
      | ok st' => rfl
    unfold aggregate_epg_files
    rw [e]
  · intro docs
    constructor
    · intro h404 d hmem ch hch cn hid
      by_contra hcn
      cases hM : mergeDocs docs with
      | error e =>
        unfold aggregate_epg_files at h404
        simp only [hM] at h404
        exact AggregateResult.noConfusion h404
      | ok st =>
        unfold aggregate_epg_files at h404
        simp only [hM] at h404
        by_cases hz : st.totalChannels = 0
        · obtain ⟨u, v, huv⟩ := List.append_of_mem hmem
          rw [huv] at hM
          unfold mergeDocs at hM
          rw [foldDocsE_append] at hM
          cases hU : foldDocsE u initState with
          | error e =>
            rw [hU] at hM
            exact Except.noConfusion hM
          | ok stU =>
            rw [hU] at hM
            have hM₂ : foldDocsE (some d :: v) stU = Except.ok st := hM
            rw [foldDocsE_cons_some] at hM₂
            cases hD : processDoc stU d with
            | error e =>
              rw [hD] at hM₂
              exact Except.noConfusion hM₂
            | ok stD =>
              rw [hD] at hM₂
              have hM₃ : foldDocsE v stD = Except.ok st := hM₂
              have hne : stD.seen ≠ [] :=
                foldChansE_establish d d.channels ⟨ch, hch, cn, hid, hcn⟩ stU stD hD
              have hne' : st.seen ≠ [] := foldDocsE_seen_ne v stD st hM₃ hne
              have hinvU := foldDocsE_count_inv u initState stU hU (fun hx => absurd rfl hx)
              have hinvD := foldChansE_count_inv d d.channels stU stD hD hinvU
              have hinv := foldDocsE_count_inv v stD st hM₃ hinvD
              have := hinv hne'
              omega
        · rw [if_neg hz] at h404
          exact AggregateResult.noConfusion h404
    · intro hall
      have e : mergeDocs docs = Except.ok initState := foldDocsE_untruthy docs hall initState
      unfold aggregate_epg_files
      rw [e]
      rfl

/-- **C2 counterexample.** An RTHK program block whose explicit end
clock-time equals its start clock-time (`23:30`–`23:30`): the day-rollover
test `end_hour < start_hour or (end_hour == start_hour and end_min <
start_min)` is false, so the end stays on the same day and
`end_time = start_time`, violating `end_time > start_time`. -/
theorem C2_counterexample :
    ¬ rthk_start_minutes 0 23 30 < rthk_end_minutes 0 23 30 (some (23, 30)) := by
  decide

/-- **C2 (amended).** What the code actually enforces: RTHK-parsed programs
satisfy only `end_time ≥ start_time` (equality exactly when an explicit end
clock-time equals the start clock-time), with the day-rollover and the
30-minute fallback giving strict inequality; and the MyTV-Super inference
gives `end_time > start_time` only under the additional assumption that the
channel's record start times are strictly increasing (the fallback branch
`start + 30min` is always strict). -/
theorem C2_end_after_start_amended (day sh sm eh em : Nat)
    (hsh : sh < 24) (hsm : sm < 60) (hem : em < 60) :
    (rthk_start_minutes day sh sm ≤ rthk_end_minutes day sh sm (some (eh, em)) ∧
      rthk_start_minutes day sh sm < rthk_end_minutes day sh sm none) ∧
    (∀ starts : List Nat, starts.Chain' (· < ·) →
      ∀ se ∈ mytv_programs (starts.map some), se.1 < se.2) := by
  constructor
  · constructor
    · simp only [rthk_end_minutes, rthk_start_minutes]
      split
      · omega
      · omega
    · simp only [rthk_end_minutes, rthk_start_minutes]
      omega
  · intro starts
    induction starts with
    | nil =>
      intro _ se hse
      exact absurd hse (List.not_mem_nil se)
    | cons s rest ih =>
      intro hchain se hse
      cases rest with
      | nil =>
        rw [List.map_cons, List.map_nil] at hse
        have : se = (s, s + 30) := by
          rcases List.mem_cons.mp hse with h | h
          · exact h
          · exact absurd h (List.not_mem_nil se)
        rw [this]
        omega
      | cons t rest2 =>
        rw [List.map_cons] at hse
        have hchain2 := List.chain'_cons.mp hchain
        rcases List.mem_cons.mp hse with h | h
        · rw [h]
          show s < mytvEnd s ((t :: rest2).map some)
          rw [List.map_cons]
          exact hchain2.1
        · exact ih hchain2.2 se h

/-- Witness for `C2_end_after_start_amended` at a concrete RTHK block
(start 23:30, end 00:15 next day) and a strictly increasing MyTV-Super
start list. -/
theorem C2_end_after_start_amended_witness :
    23 < 24 ∧ 30 < 60 ∧ 15 < 60 ∧
    (rthk_start_minutes 0 23 30 ≤ rthk_end_minutes 0 23 30 (some (0, 15)) ∧
      rthk_start_minutes 0 23 30 < rthk_end_minutes 0 23 30 none) ∧
    (∀ se ∈ mytv_programs ([10, 40, 70].map some), se.1 < se.2) := by
  have h := C2_end_after_start_amended 0 23 30 0 15 (by decide) (by decide) (by decide)
  exact ⟨by decide, by decide, by decide, h.1,
    h.2 [10, 40, 70] (by simp [List.chain'_cons])⟩

/-- **C4 counterexample.** A MyTV-Super record list `[start 0, record
without start, start 100]`: the first program's next program (in the
resulting per-channel program list) starts at 100, but because the
*immediately following raw record* lacks a `start_datetime` the code falls
back to `0 + 30min`, so the inferred end (30) is not the next program's
start (100), and the first program is not the last of the list. -/
theorem C4_counterexample :
    mytv_programs [some 0, none, some 100] = [(0, 30), (100, 130)] ∧ (30 : Nat) ≠ 100 := by
  decide

/-- **C4 (amended).** The inference reads only the immediately following
raw record: when every record of the channel's flattened list carries a
start time, each program's inferred end equals the next program's start and
the last program gets `start + 30min` — exactly the spec's rule
(`mytv_spec_infer`); but when the immediately following raw record lacks a
start time the code falls back to `start + 30min` even though a later
program exists. -/
theorem C4_end_time_inference_amended (starts : List Nat) :
    mytv_programs (starts.map some) = mytv_spec_infer starts := by
  induction starts with
  | nil => rfl
  | cons s rest ih =>
    cases rest with
    | nil => rfl
    | cons t rest2 =>
      show (s, mytvEnd s ((t :: rest2).map some)) :: mytv_programs ((t :: rest2).map some) =
        (s, t) :: mytv_spec_infer (t :: rest2)
      rw [ih]
      rfl

theorem astro_annotate_none (t d : String) : astro_annotate_title t d none = t := rfl

theorem astro_annotate_zero (t d : String) : astro_annotate_title t d (some 0) = t := rfl

theorem astro_annotate_pos_zh (t d : String) (n : Nat) (hn : n ≠ 0)
    (h : (has_chinese t || has_chinese d) = true) :
    astro_annotate_title t d (some n) = t ++ episodeSuffixZh n := by
  show (if n = 0 then t
    else if has_chinese t || has_chinese d then t ++ episodeSuffixZh n
    else t ++ episodeSuffixEn n) = t ++ episodeSuffixZh n
  rw [if_neg hn, if_pos h]

theorem astro_annotate_pos_en (t d : String) (n : Nat) (hn : n ≠ 0)
    (h : ¬ (has_chinese t || has_chinese d) = true) :
    astro_annotate_title t d (some n) = t ++ episodeSuffixEn n := by
  show (if n = 0 then t
    else if has_chinese t || has_chinese d then t ++ episodeSuffixZh n
    else t ++ episodeSuffixEn n) = t ++ episodeSuffixEn n
  rw [if_neg hn, if_neg h]

theorem suffixZh_ne_suffixEn (n : Nat) : episodeSuffixZh n ≠ episodeSuffixEn n := by
  intro h
  have h2 : (episodeSuffixZh n).data = (episodeSuffixEn n).data := congrArg String.data h
  simp only [episodeSuffixZh, episodeSuffixEn, String.data_append] at h2
  simp at h2

theorem has_chinese_or_iff (t d : String) :
    (has_chinese t || has_chinese d) = true ↔
      ∃ c, (c ∈ t.data ∨ c ∈ d.data) ∧ isCjkChar c = true := by
  rw [Bool.or_eq_true, has_chinese, has_chinese, List.any_eq_true, List.any_eq_true]
  constructor
  · rintro (⟨c, hm, hc⟩ | ⟨c, hm, hc⟩)
    · exact ⟨c, Or.inl hm, hc⟩
    · exact ⟨c, Or.inr hm, hc⟩
  · rintro ⟨c, hm | hm, hc⟩
    · exact Or.inl ⟨c, hm, hc⟩
    · exact Or.inr ⟨c, hm, hc⟩

/-- **C5 (amended).** Episode/title annotation: the CJK-conditional rule —
append `" 第{n}集"` when title or description contains a CJK ideograph of
the regex's ranges, `" Ep{n}"` otherwise, and leave the title unchanged for
an absent or falsy (zero) episode number — holds for the Astro and StarHub
adapters; the HOY adapter, however, appends the CJK form `" 第{n}集"`
unconditionally for every positive episode index, so the claim's "for every
adapter" fails (see the counterexample). -/
theorem C5_episode_annotation_amended (t d s : String) (n : Nat) (hn : 0 < n) :
    astro_annotate_title t d none = t ∧
    astro_annotate_title t d (some 0) = t ∧
    (astro_annotate_title t d (some n) = t ++ episodeSuffixZh n ↔
      ∃ c, (c ∈ t.data ∨ c ∈ d.data) ∧ isCjkChar c = true) ∧
    (astro_annotate_title t d (some n) = t ++ episodeSuffixEn n ↔
      ¬ ∃ c, (c ∈ t.data ∨ c ∈ d.data) ∧ isCjkChar c = true) ∧
    hoy_annotate_title s n = s ++ episodeSuffixZh n := by
  have hn' : n ≠ 0 := Nat.pos_iff_ne_zero.mp hn
  have happne : t ++ episodeSuffixZh n ≠ t ++ episodeSuffixEn n := by
    intro h
    have h2 := congrArg String.data h
    rw [String.data_append, String.data_append] at h2
    exact suffixZh_ne_suffixEn n (String.ext (List.append_cancel_left h2))
  refine ⟨astro_annotate_none t d, astro_annotate_zero t d, ?_, ?_, ?_⟩
  · by_cases hcz : (has_chinese t || has_chinese d) = true
    · rw [astro_annotate_pos_zh t d n hn' hcz]
      exact ⟨fun _ => (has_chinese_or_iff t d).mp hcz, fun _ => rfl⟩
    · rw [astro_annotate_pos_en t d n hn' hcz]
      constructor
      · intro h
        exact absurd h.symm happne
      · intro hx
        exact absurd ((has_chinese_or_iff t d).mpr hx) hcz
  · by_cases hcz : (has_chinese t || has_chinese d) = true
    · rw [astro_annotate_pos_zh t d n hn' hcz]
      constructor
      · intro h
        exact absurd h happne
      · intro hx
        exact absurd ((has_chinese_or_iff t d).mp hcz) hx
    · rw [astro_annotate_pos_en t d n hn' hcz]
      refine ⟨fun _ hx => absurd ((has_chinese_or_iff t d).mpr hx) hcz, fun _ => rfl⟩
  · unfold hoy_annotate_title
    rw [if_pos hn]

/-- Witness for `C5_episode_annotation_amended` at a CJK description and
episode number 3. -/
theorem C5_episode_annotation_amended_witness :
    0 < 3 ∧
    astro_annotate_title "ABC" "測試" (some 3) = "ABC" ++ episodeSuffixZh 3 ∧
    hoy_annotate_title "News" 3 = "News" ++ episodeSuffixZh 3 := by
  have h := C5_episode_annotation_amended "ABC" "測試" "News" 3 (by decide)
  exact ⟨by decide, h.2.2.1.mpr ⟨'測', Or.inr (by decide), by decide⟩, h.2.2.2.2⟩

/-- **C5 counterexample.** A HOY program with a Latin-only title and a
positive episode index: neither title nor description contains a CJK
ideograph, yet the HOY adapter appends `" 第3集"`, not the `" Ep3"` the
claim prescribes for CJK-free text. -/
theorem C5_counterexample :
    has_chinese "News" = false ∧
    hoy_annotate_title "News" 3 = "News" ++ episodeSuffixZh 3 ∧
    "News" ++ episodeSuffixZh 3 ≠ "News" ++ episodeSuffixEn 3 := by
  decide

theorem hasMatch_cons (c : Char) (rest : List Char) :
    hasMatch (c :: rest) =
      if isOpenB c then
        match rest.dropWhile (fun x => !isBracketB x) with
        | r :: _ => if isCloseB r then true else hasMatch rest
        | [] => hasMatch rest
      else hasMatch rest := rfl

theorem subPassF_succ_cons (f : Nat) (c : Char) (rest : List Char) :
    subPassF (f + 1) (c :: rest) =
      if isOpenB c then
        match rest.dropWhile (fun x => !isBracketB x) with
        | r :: rest2 => if isCloseB r then subPassF f rest2 else c :: subPassF f rest
        | [] => c :: subPassF f rest
      else c :: subPassF f rest := rfl

theorem removeBracketsLoopF_succ (f : Nat) (s : List Char) :
    removeBracketsLoopF (f + 1) s =
      if hasMatch s then removeBracketsLoopF f (subPass s) else s := rfl

theorem dropWhile_length_le {α : Type} (p : α → Bool) (l : List α) :
    (l.dropWhile p).length ≤ l.length := by
  induction l with
  | nil => exact Nat.le_refl _
  | cons a rest ih =>
    rw [List.dropWhile_cons]
    by_cases hp : p a
    · rw [if_pos hp]
      exact Nat.le_succ_of_le ih
    · rw [if_neg hp]

theorem dropWhile_append_cons {α : Type} (p : α → Bool) (s l rest : List α) (r : α)
    (h : s.dropWhile p = r :: rest) :
    (s ++ l).dropWhile p = r :: (rest ++ l) := by
  induction s with
  | nil => simp at h
  | cons a s' ih =>
    rw [List.cons_append, List.dropWhile_cons]
    rw [List.dropWhile_cons] at h
    by_cases hp : p a
    · rw [if_pos hp] at h ⊢
      exact ih h
    · rw [if_neg hp] at h ⊢
      injection h with h1 h2
      rw [h1, h2]

theorem hasMatch_append_left (l t : List Char) (h : hasMatch t = true) :
    hasMatch (l ++ t) = true := by
  induction l with
  | nil => exact h
  | cons a l' ih =>
    rw [List.cons_append, hasMatch_cons]
    by_cases ho : isOpenB a
    · rw [if_pos ho]
      cases hd : (l' ++ t).dropWhile (fun x => !isBracketB x) with
      | nil =>
        simp only [hd]
        exact ih
      | cons r rest2 =>
        simp only [hd]
        by_cases hc : isCloseB r
        · rw [if_pos hc]
        · rw [if_neg hc]
          exact ih
    · rw [if_neg ho]
      exact ih

theorem hasMatch_append_right (s l : List Char) (h : hasMatch s = true) :
    hasMatch (s ++ l) = true := by
  induction s with
  | nil => simp [hasMatch] at h
  | cons a s' ih =>
    rw [List.cons_append, hasMatch_cons]
    rw [hasMatch_cons] at h
    by_cases ho : isOpenB a
    · rw [if_pos ho] at h ⊢
      cases hd : s'.dropWhile (fun x => !isBracketB x) with
      | nil =>
        simp only [hd] at h
        cases hd2 : (s' ++ l).dropWhile (fun x => !isBracketB x) with
        | nil =>
          simp only [hd2]
          exact ih h
        | cons r2 rest2 =>
          simp only [hd2]
          by_cases hc2 : isCloseB r2
          · rw [if_pos hc2]
          · rw [if_neg hc2]
            exact ih h
      | cons r rest =>
        have hd2 := dropWhile_append_cons _ s' l rest r hd
        simp only [hd] at h
        simp only [hd2]
        by_cases hc : isCloseB r
        · rw [if_pos hc]
        · rw [if_neg hc] at h ⊢
          exact ih h
    · rw [if_neg ho] at h ⊢
      exact ih h

theorem subPassF_length_le (f : Nat) : ∀ s : List Char, (subPassF f s).length ≤ s.length := by
  induction f with
  | zero => exact fun s => Nat.le_refl _
  | succ f ih =>
    intro s
    cases s with
    | nil => exact Nat.le_refl _
    | cons c rest =>
      rw [subPassF_succ_cons]
      by_cases ho : isOpenB c
      · rw [if_pos ho]
        cases hd : rest.dropWhile (fun x => !isBracketB x) with
        | nil =>
          simp only [hd, List.length_cons]
          exact Nat.succ_le_succ (ih rest)
        | cons r rest2 =>
          simp only [hd]
          by_cases hc : isCloseB r
          · rw [if_pos hc]
            have h1 := ih rest2
            have hdl := dropWhile_length_le (fun x => !isBracketB x) rest
            rw [hd] at hdl
            simp only [List.length_cons] at *
            omega
          · rw [if_neg hc]
            simp only [List.length_cons]
            exact Nat.succ_le_succ (ih rest)
      · rw [if_neg ho]
        simp only [List.length_cons]
        exact Nat.succ_le_succ (ih rest)

theorem subPassF_length_lt (f : Nat) : ∀ s : List Char, s.length ≤ f → hasMatch s = true →
    (subPassF f s).length < s.length := by
  induction f with
  | zero =>
    intro s hf hm
    cases s with
    | nil => simp [hasMatch] at hm
    | cons c rest => simp at hf
  | succ f ih =>
    intro s hf hm
    cases s with
    | nil => simp [hasMatch] at hm
    | cons c rest =>
      rw [subPassF_succ_cons]
      rw [hasMatch_cons] at hm
      simp only [List.length_cons] at hf
      by_cases ho : isOpenB c
      · rw [if_pos ho] at hm ⊢
        cases hd : rest.dropWhile (fun x => !isBracketB x) with
        | nil =>
          simp only [hd] at hm ⊢
          have := ih rest (by omega) hm
          simp only [List.length_cons]
          omega
        | cons r rest2 =>
          simp only [hd] at hm ⊢
          by_cases hc : isCloseB r
          · rw [if_pos hc]
            have h1 := subPassF_length_le f rest2
            have hdl := dropWhile_length_le (fun x => !isBracketB x) rest
            rw [hd] at hdl
            simp only [List.length_cons] at *
            omega
          · rw [if_neg hc] at hm ⊢
            have := ih rest (by omega) hm
            simp only [List.length_cons]
            omega
      · rw [if_neg ho] at hm ⊢
        have := ih rest (by omega) hm
        simp only [List.length_cons]
        omega

theorem removeBracketsLoopF_no_match (f : Nat) : ∀ s : List Char, s.length ≤ f →
    hasMatch (removeBracketsLoopF f s) = false := by
  induction f with
  | zero =>
    intro s hf
    cases s with
    | nil => rfl
    | cons c rest => simp at hf
  | succ f ih =>
    intro s hf
    rw [removeBracketsLoopF_succ]
    by_cases hm : hasMatch s = true
    · rw [if_pos hm]
      apply ih
      have hlt := subPassF_length_lt s.length s (Nat.le_refl _) hm
      show (subPassF s.length s).length ≤ f
      omega
    · rw [if_neg hm]
      exact Bool.eq_false_iff.mpr hm

theorem head_dropWhile_not {α : Type} (p : α → Bool) (l : List α) (c : α)
    (h : (l.dropWhile p).head? = some c) : p c = false := by
  induction l with
  | nil => simp at h
  | cons a rest ih =>
    rw [List.dropWhile_cons] at h
    by_cases hp : p a
    · rw [if_pos hp] at h
      exact ih h
    · rw [if_neg hp] at h
      simp only [List.head?_cons, Option.some.injEq] at h
      rw [← h]
      exact Bool.eq_false_iff.mpr hp

theorem dropWhile_split_rev (p : Char → Bool) (u : List Char) :
    u = (u.reverse.dropWhile p).reverse ++ (u.reverse.takeWhile p).reverse := by
  have e3 := List.takeWhile_append_dropWhile p u.reverse
  calc u = u.reverse.reverse := (List.reverse_reverse u).symm
    _ = (u.reverse.takeWhile p ++ u.reverse.dropWhile p).reverse := by rw [e3]
    _ = (u.reverse.dropWhile p).reverse ++ (u.reverse.takeWhile p).reverse :=
      List.reverse_append _ _

theorem pyStrip_infix (t : List Char) :
    ∃ l₁ l₂, t = l₁ ++ pyStrip t ++ l₂ := by
  refine ⟨t.takeWhile isPySpace,
    ((t.dropWhile isPySpace).reverse.takeWhile isPySpace).reverse, ?_⟩
  have e1 := List.takeWhile_append_dropWhile isPySpace t
  have e2 := dropWhile_split_rev isPySpace (t.dropWhile isPySpace)
  have e3 : pyStrip t = ((t.dropWhile isPySpace).reverse.dropWhile isPySpace).reverse := rfl
  rw [List.append_assoc, e3, ← e2, e1]

theorem hasMatch_pyStrip (t : List Char) (h : hasMatch (pyStrip t) = true) :
    hasMatch t = true := by
  obtain ⟨l₁, l₂, e⟩ := pyStrip_infix t
  rw [e, List.append_assoc]
  exact hasMatch_append_left l₁ (pyStrip t ++ l₂)
    (hasMatch_append_right (pyStrip t) l₂ h)

theorem dropWhile_eq_cons_head {α : Type} (p : α → Bool) (t : List α) (c : α) (l : List α)
    (h : t.dropWhile p = c :: l) : (t.dropWhile p).head? = some c := by
  rw [h]
  rfl

theorem pyStrip_head_not_space (t : List Char) (c : Char)
    (h : (pyStrip t).head? = some c) : isPySpace c = false := by
  cases hps : pyStrip t with
  | nil =>
    rw [hps] at h
    simp at h
  | cons a rest =>
    rw [hps] at h
    simp only [List.head?_cons, Option.some.injEq] at h
    have e2 := dropWhile_split_rev isPySpace (t.dropWhile isPySpace)
    have e3 : t.dropWhile isPySpace = (a :: rest) ++
        ((t.dropWhile isPySpace).reverse.takeWhile isPySpace).reverse := by
      rw [← hps]
      exact e2
    have e4 : (t.dropWhile isPySpace).head? = some a := by
      rw [e3]
      rfl
    rw [← h]
    exact head_dropWhile_not isPySpace t a e4

theorem pyStrip_getLast_not_space (t : List Char) (c : Char)
    (h : (pyStrip t).getLast? = some c) : isPySpace c = false := by
  have e1 : (pyStrip t).reverse = (t.dropWhile isPySpace).reverse.dropWhile isPySpace := by
    unfold pyStrip
    rw [List.reverse_reverse]
  have h2 : ((t.dropWhile isPySpace).reverse.dropWhile isPySpace).head? = some c := by
    rw [← e1, List.head?_reverse]
    exact h
  exact head_dropWhile_not isPySpace _ c h2

/-- **C6.** `remove_brackets` leaves no remaining matched `(...)`/（...）
group (nested groups are removed by iterating the innermost-group deletion
pass to fixpoint) and no leading or trailing whitespace, and in particular
maps `"ABC (HD)（測試）"` to `"ABC"`. -/
theorem C6_remove_brackets (s : List Char) :
    hasMatch (remove_brackets s) = false ∧
    (∀ c : Char, (remove_brackets s).head? = some c → isPySpace c = false) ∧
    (∀ c : Char, (remove_brackets s).getLast? = some c → isPySpace c = false) ∧
    remove_brackets ("ABC (HD)（測試）").data = ("ABC").data := by
  refine ⟨?_, ?_, ?_, by decide⟩
  · have hloop := removeBracketsLoopF_no_match s.length s (Nat.le_refl _)
    apply Bool.eq_false_iff.mpr
    intro htrue
    have h2 := hasMatch_pyStrip (removeBracketsLoopF s.length s) htrue
    rw [hloop] at h2
    exact Bool.noConfusion h2
  · intro c h
    exact pyStrip_head_not_space (removeBracketsLoopF s.length s) c h
  · intro c h
    exact pyStrip_getLast_not_space (removeBracketsLoopF s.length s) c h

theorem digitChar_valid (d : Nat) : xmlValidChar (digitChar d) = true := by
  unfold digitChar
  repeat' split
  all_goals decide

theorem natDigitsF_valid (f : Nat) : ∀ n : Nat, ∀ c ∈ natDigitsF f n, xmlValidChar c = true := by
  induction f with
  | zero =>
    intro n c hm
    exact absurd hm (List.not_mem_nil c)
  | succ f ih =>
    intro n c hm
    unfold natDigitsF at hm
    split at hm
    · rw [List.mem_singleton] at hm
      rw [hm]
      exact digitChar_valid n
    · rcases List.mem_append.mp hm with h | h
      · exact ih (n / 10) c h
      · rw [List.mem_singleton] at h
        rw [h]
        exact digitChar_valid n

theorem padNum_valid (w n : Nat) : ∀ c ∈ padNum w n, xmlValidChar c = true := by
  intro c hm
  unfold padNum at hm
  rcases List.mem_append.mp hm with h | h
  · rw [List.eq_of_mem_replicate h]
    decide
  · exact natDigitsF_valid (n + 1) n c h

theorem time_stamp_valid (t : ShTime) : strValid (time_stamp_to_timezone_str t) = true := by
  apply List.all_eq_true.mpr
  intro c hm
  have hm' : c ∈ padNum 4 t.year ++ padNum 2 t.month ++ padNum 2 t.day ++ padNum 2 t.hour ++
      padNum 2 t.minute ++ padNum 2 t.second ++ (" +0800").data := hm
  rcases List.mem_append.mp hm' with h | h
  · rcases List.mem_append.mp h with h | h
    · rcases List.mem_append.mp h with h | h
      · rcases List.mem_append.mp h with h | h
        · rcases List.mem_append.mp h with h | h
          · rcases List.mem_append.mp h with h | h
            · exact padNum_valid 4 t.year c h
            · exact padNum_valid 2 t.month c h
          · exact padNum_valid 2 t.day c h
        · exact padNum_valid 2 t.hour c h
      · exact padNum_valid 2 t.minute c h
    · exact padNum_valid 2 t.second c h
  · have h' : c ∈ [' ', '+', '0', '8', '0', '0'] := h
    fin_cases h' <;> decide

theorem cleanKeepChar_valid (c : Char) (h : cleanKeepChar c = true) : xmlValidChar c = true := by
  simp only [cleanKeepChar, decide_eq_true_eq] at h
  simp only [xmlValidChar, decide_eq_true_eq]
  omega

theorem clean_chars_keep (s : String) :
    ∀ c ∈ (clean_invalid_xml_chars s).data, cleanKeepChar c = true := by
  intro c hm
  have hm' : c ∈ s.data.filter cleanKeepChar := hm
  exact (List.mem_filter.mp hm').2

theorem htmlEscapeChar_keep (c : Char) (hc : cleanKeepChar c = true) :
    ∀ x ∈ htmlEscapeChar c, cleanKeepChar x = true := by
  intro x hx
  unfold htmlEscapeChar at hx
  split at hx
  · fin_cases hx <;> decide
  · split at hx
    · fin_cases hx <;> decide
    · split at hx
      · fin_cases hx <;> decide
      · split at hx
        · fin_cases hx <;> decide
        · split at hx
          · fin_cases hx <;> decide
          · rw [List.mem_singleton] at hx
            rw [hx]
            exact hc

theorem html_escape_keep (s : String) (hs : ∀ c ∈ s.data, cleanKeepChar c = true) :
    ∀ x ∈ (html_escape s).data, cleanKeepChar x = true := by
  intro x hx
  have hx' : x ∈ s.data.flatMap htmlEscapeChar := hx
  obtain ⟨c, hc, hxc⟩ := List.mem_flatMap.mp hx'
  exact htmlEscapeChar_keep c (hs c hc) x hxc

theorem stored_desc_valid (s : String) :
    strValid (html_escape (clean_invalid_xml_chars s)) = true := by
  apply List.all_eq_true.mpr
  intro c hm
  exact cleanKeepChar_valid c
    (html_escape_keep (clean_invalid_xml_chars s) (clean_chars_keep s) c hm)

theorem parsedChannelIds_chanPart (chans : List RawChannel) :
    parsedChannelIds (chans.map (fun c => TvElem.channel c.channelName c.channelName)) =
      chans.map (fun c => c.channelName) := by
  induction chans with
  | nil => rfl
  | cons c rest ih =>
    simp only [parsedChannelIds, List.map_cons, List.filterMap_cons] at ih ⊢
    rw [ih]

theorem parsedChannelIds_append (l₁ l₂ : List TvElem) :
    parsedChannelIds (l₁ ++ l₂) = parsedChannelIds l₁ ++ parsedChannelIds l₂ := by
  simp [parsedChannelIds, List.filterMap_append]

theorem parsedProgTuples_append (l₁ l₂ : List TvElem) :
    parsedProgTuples (l₁ ++ l₂) = parsedProgTuples l₁ ++ parsedProgTuples l₂ := by
  simp [parsedProgTuples, List.filterMap_append]

theorem parsedDescs_append (l₁ l₂ : List TvElem) :
    parsedDescs (l₁ ++ l₂) = parsedDescs l₁ ++ parsedDescs l₂ := by
  simp [parsedDescs, List.filterMap_append]

theorem parsedProgTuples_chanPart (chans : List RawChannel) :
    parsedProgTuples (chans.map (fun c => TvElem.channel c.channelName c.channelName)) = [] := by
  induction chans with
  | nil => rfl
  | cons c rest ih =>
    simp only [parsedProgTuples, List.map_cons, List.filterMap_cons] at ih ⊢
    exact ih

theorem parsedDescs_chanPart (chans : List RawChannel) :
    parsedDescs (chans.map (fun c => TvElem.channel c.channelName c.channelName)) = [] := by
  induction chans with
  | nil => rfl
  | cons c rest ih =>
    simp only [parsedDescs, List.map_cons, List.filterMap_cons] at ih ⊢
    exact ih

theorem parsedChannelIds_generateEpg (channels : List RawChannel)
    (programs : List RawProgram) :
    parsedChannelIds (generateEpg channels programs) =
      channels.map (fun c => c.channelName) := by
  unfold generateEpg
  rw [parsedChannelIds_append, parsedChannelIds_chanPart]
  have e2 : parsedChannelIds (programs.map (fun p =>
      TvElem.programme p.channelName
        (time_stamp_to_timezone_str p.start) (time_stamp_to_timezone_str p.stop)
        p.programName
        (if p.description = "" then none
         else some (html_escape (clean_invalid_xml_chars p.description))))) = [] := by
    induction programs with
    | nil => rfl
    | cons p rest ih =>
      simp only [parsedChannelIds, List.map_cons, List.filterMap_cons] at ih ⊢
      exact ih
  rw [e2, List.append_nil]

theorem parsedProgTuples_generateEpg (channels : List RawChannel)
    (programs : List RawProgram) :
    parsedProgTuples (generateEpg channels programs) =
      programs.map (fun p => (p.channelName, p.programName,
        time_stamp_to_timezone_str p.start, time_stamp_to_timezone_str p.stop)) := by
  unfold generateEpg
  rw [parsedProgTuples_append, parsedProgTuples_chanPart]
  have e2 : parsedProgTuples (programs.map (fun p =>
      TvElem.programme p.channelName
        (time_stamp_to_timezone_str p.start) (time_stamp_to_timezone_str p.stop)
        p.programName
        (if p.description = "" then none
         else some (html_escape (clean_invalid_xml_chars p.description))))) =
      programs.map (fun p => (p.channelName, p.programName,
        time_stamp_to_timezone_str p.start, time_stamp_to_timezone_str p.stop)) := by
    induction programs with
    | nil => rfl
    | cons p rest ih =>
      simp only [parsedProgTuples, List.map_cons, List.filterMap_cons] at ih ⊢
      rw [ih]
  rw [e2, List.nil_append]

theorem parsedDescs_generateEpg (channels : List RawChannel) (programs : List RawProgram) :
    parsedDescs (generateEpg channels programs) =
      programs.map (fun p =>
        if p.description = "" then none
        else some (html_escape (clean_invalid_xml_chars p.description))) := by
  unfold generateEpg
  rw [parsedDescs_append, parsedDescs_chanPart]
  have e2 : parsedDescs (programs.map (fun p =>
      TvElem.programme p.channelName
        (time_stamp_to_timezone_str p.start) (time_stamp_to_timezone_str p.stop)
        p.programName
        (if p.description = "" then none
         else some (html_escape (clean_invalid_xml_chars p.description))))) =
      programs.map (fun p =>
        if p.description = "" then none
        else some (html_escape (clean_invalid_xml_chars p.description))) := by
    induction programs with
    | nil => rfl
    | cons p rest ih =>
      simp only [parsedDescs, List.map_cons, List.filterMap_cons] at ih ⊢
      rw [ih]
  rw [e2, List.nil_append]

theorem crNormL_eq_self : ∀ l : List Char, (∀ c ∈ l, c.toNat ≠ 13) → crNormL l = l
  | [], _ => rfl
  | [c], h => by
    unfold crNormL
    rw [if_neg (h c (List.mem_cons_self c []))]
  | c :: c2 :: rest, h => by
    unfold crNormL
    rw [if_neg (h c (List.mem_cons_self c (c2 :: rest)))]
    rw [crNormL_eq_self (c2 :: rest) (fun x hx => h x (List.mem_cons_of_mem c hx))]

theorem crNorm_eq_self (s : String) (h : noCR s = true) : crNorm s = s := by
  unfold crNorm
  rw [crNormL_eq_self s.data (fun c hc => of_decide_eq_true (List.all_eq_true.mp h c hc))]

theorem crNormL_noCR : ∀ l : List Char, ∀ c ∈ crNormL l, c.toNat ≠ 13
  | [], c, hc => absurd hc (List.not_mem_nil c)
  | [a], c, hc => by
    by_cases h13 : a.toNat = 13
    · unfold crNormL at hc
      rw [if_pos h13, List.mem_singleton] at hc
      rw [hc]
      decide
    · unfold crNormL at hc
      rw [if_neg h13, List.mem_singleton] at hc
      rw [hc]
      exact h13
  | a :: b :: rest, c, hc => by
    by_cases h13 : a.toNat = 13
    · by_cases h10 : b.toNat = 10
      · unfold crNormL at hc
        rw [if_pos h13, if_pos h10, List.mem_cons] at hc
        rcases hc with rfl | hc
        · decide
        · exact crNormL_noCR rest c hc
      · unfold crNormL at hc
        rw [if_pos h13, if_neg h10, List.mem_cons] at hc
        rcases hc with rfl | hc
        · decide
        · exact crNormL_noCR (b :: rest) c hc
    · unfold crNormL at hc
      rw [if_neg h13, List.mem_cons] at hc
      rcases hc with rfl | hc
      · exact h13
      · exact crNormL_noCR (b :: rest) c hc

theorem htmlEscapeChar_noCR (c : Char) (hc : c.toNat ≠ 13) :
    ∀ x ∈ htmlEscapeChar c, x.toNat ≠ 13 := by
  intro x hx
  unfold htmlEscapeChar at hx
  split at hx
  · fin_cases hx <;> decide
  · split at hx
    · fin_cases hx <;> decide
    · split at hx
      · fin_cases hx <;> decide
      · split at hx
        · fin_cases hx <;> decide
        · split at hx
          · fin_cases hx <;> decide
          · rw [List.mem_singleton] at hx
            rw [hx]
            exact hc

theorem parsedChannelIds_normElem (doc : List TvElem) :
    parsedChannelIds (doc.map normElem) = parsedChannelIds doc := by
  induction doc with
  | nil => rfl
  | cons e rest ih =>
    cases e with
    | channel i d =>
      simp only [List.map_cons, parsedChannelIds, List.filterMap_cons, normElem] at ih ⊢
      rw [ih]
    | programme c s t ti de =>
      simp only [List.map_cons, parsedChannelIds, List.filterMap_cons, normElem] at ih ⊢
      exact ih

theorem parsedProgTuples_normElem (doc : List TvElem) :
    parsedProgTuples (doc.map normElem) =
      (parsedProgTuples doc).map (fun x => (x.1, crNorm x.2.1, x.2.2.1, x.2.2.2)) := by
  induction doc with
  | nil => rfl
  | cons e rest ih =>
    cases e with
    | channel i d =>
      simp only [List.map_cons, parsedProgTuples, List.filterMap_cons, normElem] at ih ⊢
      exact ih
    | programme c s t ti de =>
      simp only [List.map_cons, parsedProgTuples, List.filterMap_cons, normElem] at ih ⊢
      rw [ih]

theorem parsedDescs_normElem (doc : List TvElem) :
    parsedDescs (doc.map normElem) = (parsedDescs doc).map (Option.map crNorm) := by
  induction doc with
  | nil => rfl
  | cons e rest ih =>
    cases e with
    | channel i d =>
      simp only [List.map_cons, parsedDescs, List.filterMap_cons, normElem] at ih ⊢
      exact ih
    | programme c s t ti de =>
      simp only [List.map_cons, parsedDescs, List.filterMap_cons, normElem] at ih ⊢
      rw [ih]

/-- **C7 (amended).** Serializer round-trip holds on XML-representable,
CR-free inputs: when every channel name and every program's channel
reference and title consist of XML-valid characters and no title contains
a carriage return, serializing and re-parsing succeeds and the parsed
document — the serialized tree with its text nodes end-of-line-normalized
by the XML parser — carries exactly the original channel id list (the
display names) and, for every program, the original
`(channel, title, start, stop)` tuple with the times rendered by the fixed
`%Y%m%d%H%M%S %z` Asia/Shanghai format.  The claim as frozen quantifies
over *all* title strings; it fails both for titles holding XML-invalid
control characters, which `generateEpg` stores unscrubbed and which make
the serialized bytes unparsable (see the counterexample), and for titles
holding a carriage return, which the re-parse turns into a line feed. -/
theorem C7_round_trip_amended (channels : List RawChannel) (programs : List RawProgram)
    (hch : ∀ c ∈ channels, strValid c.channelName = true)
    (hpr : ∀ p ∈ programs, strValid p.channelName = true ∧ strValid p.programName = true ∧
      noCR p.programName = true) :
    reparse (generateEpg channels programs) =
      some ((generateEpg channels programs).map normElem) ∧
    parsedChannelIds ((generateEpg channels programs).map normElem) =
      channels.map (fun c => c.channelName) ∧
    parsedProgTuples ((generateEpg channels programs).map normElem) =
      programs.map (fun p => (p.channelName, p.programName,
        time_stamp_to_timezone_str p.start, time_stamp_to_timezone_str p.stop)) := by
  refine ⟨?_, ?_, ?_⟩
  · have hall : (generateEpg channels programs).all elemValid = true := by
      apply List.all_eq_true.mpr
      intro e he
      unfold generateEpg at he
      rcases List.mem_append.mp he with h | h
      · obtain ⟨c, hc, rfl⟩ := List.mem_map.mp h
        simp [elemValid, hch c hc]
      · obtain ⟨p, hp, rfl⟩ := List.mem_map.mp h
        have h1 := (hpr p hp).1
        have h2 := (hpr p hp).2.1
        by_cases hd : p.description = ""
        · simp [elemValid, h1, h2, time_stamp_valid, hd]
        · simp [elemValid, h1, h2, time_stamp_valid, hd, stored_desc_valid]
    unfold reparse
    rw [if_pos hall]
  · rw [parsedChannelIds_normElem]
    exact parsedChannelIds_generateEpg channels programs
  · rw [parsedProgTuples_normElem, parsedProgTuples_generateEpg, List.map_map]
    apply List.map_congr_left
    intro p hp
    show (p.channelName, crNorm p.programName, time_stamp_to_timezone_str p.start,
      time_stamp_to_timezone_str p.stop) = (p.channelName, p.programName,
      time_stamp_to_timezone_str p.start, time_stamp_to_timezone_str p.stop)
    rw [crNorm_eq_self p.programName (hpr p hp).2.2]

/-- Witness for `C7_round_trip_amended`: a one-channel, one-program input
with XML-valid, CR-free names round-trips, the programme tuple carrying
the fixed timestamp rendering. -/
theorem C7_round_trip_amended_witness :
    reparse (generateEpg [⟨"CH"⟩]
        [⟨"CH", "Title", "a&b", ⟨2025, 1, 1, 12, 0, 0⟩, ⟨2025, 1, 1, 12, 30, 0⟩⟩]) =
      some ((generateEpg [⟨"CH"⟩]
        [⟨"CH", "Title", "a&b", ⟨2025, 1, 1, 12, 0, 0⟩, ⟨2025, 1, 1, 12, 30, 0⟩⟩]).map
          normElem) ∧
    parsedProgTuples ((generateEpg [⟨"CH"⟩]
        [⟨"CH", "Title", "a&b", ⟨2025, 1, 1, 12, 0, 0⟩, ⟨2025, 1, 1, 12, 30, 0⟩⟩]).map
          normElem) =
      [("CH", "Title", "20250101120000 +0800", "20250101123000 +0800")] := by
  have h := C7_round_trip_amended [⟨"CH"⟩]
    [⟨"CH", "Title", "a&b", ⟨2025, 1, 1, 12, 0, 0⟩, ⟨2025, 1, 1, 12, 30, 0⟩⟩]
    (by decide) (by decide)
  refine ⟨h.1, ?_⟩
  rw [h.2.2]
  decide

/-- **C7 counterexample.** A program whose title is the single character
U+0000: `generateEpg` stores the title verbatim (no scrub), `ET.tostring`
writes it, and re-parsing the bytes fails, so no channel/tuple set is
recovered at all — the round-trip claim fails for this title. -/
theorem C7_counterexample :
    reparse (generateEpg [⟨"C1"⟩]
      [⟨"C1", ⟨[Char.ofNat 0]⟩, "", ⟨2025, 1, 1, 0, 0, 0⟩, ⟨2025, 1, 1, 0, 30, 0⟩⟩]) =
      none := by
  decide

theorem flatMap_length_ge {α β : Type} (f : α → List β) (l : List α)
    (hf : ∀ c, 1 ≤ (f c).length) : l.length ≤ (l.flatMap f).length := by
  induction l with
  | nil => exact Nat.le_refl _
  | cons a rest ih =>
    rw [List.flatMap_cons, List.length_append, List.length_cons]
    have := hf a
    omega

theorem flatMap_length_gt {α β : Type} (f : α → List β) (l : List α) (c₀ : α)
    (hf : ∀ c, 1 ≤ (f c).length) (hm : c₀ ∈ l) (h4 : 2 ≤ (f c₀).length) :
    l.length < (l.flatMap f).length := by
  induction l with
  | nil => exact absurd hm (List.not_mem_nil c₀)
  | cons a rest ih =>
    rw [List.flatMap_cons, List.length_append, List.length_cons]
    rcases List.mem_cons.mp hm with rfl | hm'
    · have := flatMap_length_ge f rest hf
      omega
    · have h1 := ih hm'
      have h2 := hf a
      omega

theorem htmlEscapeChar_length_ge (c : Char) : 1 ≤ (htmlEscapeChar c).length := by
  unfold htmlEscapeChar
  repeat' split
  all_goals first
    | decide
    | simp

theorem escape_longer (s : String) (c₀ : Char) (hm : c₀ ∈ s.data)
    (h4 : 2 ≤ (htmlEscapeChar c₀).length) :
    s.data.length < (html_escape s).data.length := by
  have e : (html_escape s).data = s.data.flatMap htmlEscapeChar := rfl
  rw [e]
  exact flatMap_length_gt _ _ c₀ htmlEscapeChar_length_ge hm h4

/-- **C10 (amended).** The serializer escapes descriptions twice: a
non-empty description is stored as
`html.escape(clean_invalid_xml_chars(desc))`, which the XML writer escapes
again, so the parser returns the once-escaped text *after the parser's
end-of-line normalization* — never the original description whenever it
contains `&`, `<` or `>` — and the output bytes render each original `&`
as `&amp;amp;`; a program with an empty (falsy) description gets no
`<desc>` element at all.  (For CR-free descriptions the normalization is
the identity and the parsed text is exactly the once-escaped form; a
description holding a carriage return comes back with it turned into a
line feed, refuting the claim as frozen — see the counterexample.) -/
theorem C10_desc_double_escape (chs : List RawChannel) (p q : RawProgram)
    (h : p.description.data.any (fun c => c = '&' ∨ c = '<' ∨ c = '>') = true)
    (hq : q.description = "") :
    parsedDescs ((generateEpg chs [p]).map normElem) =
      [some (crNorm (html_escape (clean_invalid_xml_chars p.description)))] ∧
    crNorm (html_escape (clean_invalid_xml_chars p.description)) ≠ p.description ∧
    parsedDescs ((generateEpg chs [q]).map normElem) = [none] ∧
    cdataRender (html_escape "a&b") = "a&amp;amp;b" := by
  obtain ⟨c₀, hc₀m, hc₀⟩ := List.any_eq_true.mp h
  simp only [decide_eq_true_eq] at hc₀
  have hpd : p.description ≠ "" := by
    intro he
    rw [he] at hc₀m
    exact absurd hc₀m (List.not_mem_nil c₀)
  refine ⟨?_, ?_, ?_, by decide⟩
  · rw [parsedDescs_normElem, parsedDescs_generateEpg chs [p], List.map_cons, List.map_nil,
      if_neg hpd]
    rfl
  · intro heq
    by_cases hcr : ∃ c ∈ p.description.data, c.toNat = 13
    · obtain ⟨cr, hcrm, hcr13⟩ := hcr
      rw [← heq] at hcrm
      exact crNormL_noCR _ cr hcrm hcr13
    · push_neg at hcr
      have hnoS : ∀ x ∈ (html_escape (clean_invalid_xml_chars p.description)).data,
          x.toNat ≠ 13 := by
        intro x hx
        have hx2 : x ∈ (clean_invalid_xml_chars p.description).data.flatMap htmlEscapeChar :=
          hx
        obtain ⟨c, hc, hxc⟩ := List.mem_flatMap.mp hx2
        have hc2 : c ∈ p.description.data.filter cleanKeepChar := hc
        exact htmlEscapeChar_noCR c (hcr c (List.mem_filter.mp hc2).1) x hxc
      have hS : crNorm (html_escape (clean_invalid_xml_chars p.description)) =
          html_escape (clean_invalid_xml_chars p.description) := by
        unfold crNorm
        rw [crNormL_eq_self _ hnoS]
      rw [hS] at heq
      by_cases hall : ∀ c ∈ p.description.data, cleanKeepChar c = true
      · have hclean : clean_invalid_xml_chars p.description = p.description := by
          unfold clean_invalid_xml_chars
          rw [List.filter_eq_self.mpr hall]
        rw [hclean] at heq
        have hlen := congrArg (fun s : String => s.data.length) heq
        simp only at hlen
        have hlt : p.description.data.length < (html_escape p.description).data.length := by
          apply escape_longer p.description c₀ hc₀m
          rcases hc₀ with rfl | rfl | rfl
          · decide
          · decide
          · decide
        omega
      · push_neg at hall
        obtain ⟨c, hcm, hck⟩ := hall
        have hrhs := html_escape_keep (clean_invalid_xml_chars p.description)
          (clean_chars_keep p.description)
        rw [← heq] at hcm
        exact hck (hrhs c hcm)
  · rw [parsedDescs_normElem, parsedDescs_generateEpg chs [q], List.map_cons, List.map_nil,
      if_pos hq]
    rfl

/-- **C10 counterexample.** A description holding a carriage return
(`"a\rb"`, with an `&` so the escape matters too): the serialized tree
parses, but the parsed `<desc>` text is the end-of-line-normalized form of
the stored once-escaped text, which differs from that stored text — the
claim's promise that the parser returns
`html.escape(clean_invalid_xml_chars(desc))` verbatim fails. -/
theorem C10_counterexample :
    Option.map parsedDescs (reparse (generateEpg []
      [⟨"C", "T", ⟨['a', '&', Char.ofNat 13, 'b']⟩,
        ⟨2025, 1, 1, 0, 0, 0⟩, ⟨2025, 1, 1, 0, 30, 0⟩⟩])) =
      some [some (crNorm (html_escape
        (clean_invalid_xml_chars ⟨['a', '&', Char.ofNat 13, 'b']⟩)))] ∧
    crNorm (html_escape (clean_invalid_xml_chars ⟨['a', '&', Char.ofNat 13, 'b']⟩)) ≠
      html_escape (clean_invalid_xml_chars ⟨['a', '&', Char.ofNat 13, 'b']⟩) := by
  refine ⟨by decide, by decide⟩

/-- Witness for `C10_desc_double_escape` at the description `"a&b"`: the
parsed desc text is the (CR-free, hence normalization-invariant) escaped
form, which differs from the original. -/
theorem C10_desc_double_escape_witness :
    parsedDescs ((generateEpg []
        [⟨"C", "T", "a&b", ⟨2025, 1, 1, 0, 0, 0⟩, ⟨2025, 1, 1, 0, 30, 0⟩⟩]).map normElem) =
      [some (crNorm (html_escape (clean_invalid_xml_chars "a&b")))] ∧
    crNorm (html_escape (clean_invalid_xml_chars "a&b")) ≠ "a&b" ∧
    crNorm (html_escape (clean_invalid_xml_chars "a&b")) = "a&amp;b" := by
  have h := C10_desc_double_escape []
    ⟨"C", "T", "a&b", ⟨2025, 1, 1, 0, 0, 0⟩, ⟨2025, 1, 1, 0, 30, 0⟩⟩
    ⟨"C", "T", "", ⟨2025, 1, 1, 0, 0, 0⟩, ⟨2025, 1, 1, 0, 30, 0⟩⟩
    (by decide) (by decide)
  exact ⟨h.1, h.2.1, by decide⟩

theorem diffSeconds_next_midnight (d : Int) (t : Nat) :
    diffSeconds ⟨d + 1, 0⟩ ⟨d, t⟩ = 86400 - (t : Int) := by
  simp only [diffSeconds]
  omega

theorem astro_zero_eq (now : SInstant) :
    astro_get_date_params now 0 =
      (⟨now.day + (0 : Nat),
        now.sod / 3600 * 3600 + (if now.sod / 60 % 60 < 30 then 0 else 30) * 60⟩,
       ceilDivNat (diffSeconds
         ⟨now.day + (0 : Nat) + 1, 0⟩
         ⟨now.day + (0 : Nat),
          now.sod / 3600 * 3600 + (if now.sod / 60 % 60 < 30 then 0 else 30) * 60⟩).toNat
         3600) := rfl

theorem astro_pos_eq (now : SInstant) (dd : Nat) (h : ¬ dd = 0) :
    astro_get_date_params now dd = (⟨now.day + dd, 0⟩, 24) := by
  simp only [astro_get_date_params]
  rw [if_neg h]

/-- **C9.** The Astro query-window computation: for `date_delta = 0` the
window start keeps the current Asia/Shanghai day and equals the current
time with minutes rounded down to the nearest half hour (a multiple of 30
minutes, at most the current time, less than half an hour before it, with
seconds zeroed), and the duration is the number of seconds to the next
local midnight divided by 3600 and rounded up (characterized by the two
ceiling inequalities); at local time 15:34 the window is 15:30 with
duration 9.  For every `date_delta ≥ 1` the window starts at local
midnight of the shifted day with duration 24. -/
theorem C9_astro_window (now : SInstant) (h : now.sod < 86400) :
    ((astro_get_date_params now 0).1.day = now.day ∧
     (astro_get_date_params now 0).1.sod % 1800 = 0 ∧
     (astro_get_date_params now 0).1.sod ≤ now.sod ∧
     now.sod < (astro_get_date_params now 0).1.sod + 1800 ∧
     (astro_get_date_params now 0).2 * 3600 ≥ 86400 - (astro_get_date_params now 0).1.sod ∧
     ((astro_get_date_params now 0).2 - 1) * 3600 <
       86400 - (astro_get_date_params now 0).1.sod) ∧
    (∀ dd : Nat, 1 ≤ dd → astro_get_date_params now dd = (⟨now.day + dd, 0⟩, 24)) ∧
    astro_get_date_params ⟨0, 15 * 3600 + 34 * 60⟩ 0 = (⟨0, 15 * 3600 + 30 * 60⟩, 9) := by
  refine ⟨?_, ?_, by decide⟩
  · rw [astro_zero_eq now]
    rw [diffSeconds_next_midnight]
    simp only
    have htn : ((86400 : Int) -
        (now.sod / 3600 * 3600 + (if now.sod / 60 % 60 < 30 then 0 else 30) * 60 : Nat)).toNat =
        86400 - (now.sod / 3600 * 3600 + (if now.sod / 60 % 60 < 30 then 0 else 30) * 60) := by
      split
      · omega
      · omega
    rw [htn]
    simp only [ceilDivNat]
    refine ⟨by simp, ?_, ?_, ?_, ?_, ?_⟩
    · split
      · omega
      · omega
    · split
      · omega
      · omega
    · split
      · omega
      · omega
    · split
      · omega
      · omega
    · split
      · omega
      · omega
  · intro dd hdd
    exact astro_pos_eq now dd (by omega)

/-- Witness for `C9_astro_window` at Shanghai time 15:34:56 on day 5: the
window starts at 15:30 (seconds zeroed) with duration 9, and the rounded
start does not exceed the current time. -/
theorem C9_astro_window_witness :
    (15 * 3600 + 34 * 60 + 56 : Nat) < 86400 ∧
    astro_get_date_params ⟨5, 15 * 3600 + 34 * 60 + 56⟩ 0 =
      (⟨5, 15 * 3600 + 30 * 60⟩, 9) ∧
    (astro_get_date_params ⟨5, 15 * 3600 + 34 * 60 + 56⟩ 0).1.sod ≤
      15 * 3600 + 34 * 60 + 56 := by
  have h := C9_astro_window ⟨5, 15 * 3600 + 34 * 60 + 56⟩ (by decide)
  exact ⟨by decide, by decide, h.1.2.2.1⟩
